import Mathlib

/-!
Verification of the block staging cache in `src/block_cache.rs` (with its
driver in `src/main.rs`).

Shallow embedding conventions:
* `bitcoin::BlockHash` is an opaque, equality-comparable identifier: modelled
  as `Nat`.
* `bitcoin::block::Block` is opaque to the cache except for the two
  identifiers `block_hash()` and `header.prev_blockhash` that
  `BlockCache::add_block` extracts: modelled as a structure holding exactly
  those two identifiers.
* `HashMap` is modelled as an association list with unique keys maintained by
  the operations (`minsert` replaces the entry when the key is present,
  appends otherwise; `merase` removes the key).  `HashSet<BlockHash>`
  (`TreeNode.children`) is modelled as a duplicate-free list; the source
  iterates hash sets in an unspecified order, here iteration follows
  insertion order.
* Rust panics (`expect`, asserted invariant violations) make a function
  return `none`; a `some` result is a run the Rust program completes.
* The counters are `u32`.  All of them only ever grow by one per cache
  operation, so they stay below `2^32` in any run of fewer than `2^32`
  operations and plain `Nat` arithmetic is exact for them.  The one place
  where `u32` overflow genuinely matters is the subtraction
  `orig_level - root_removed_cnt` in `add_block_info`, which underflows when
  the tree was promoted to emptiness and refilled; it is modelled by the
  explicit wrapping subtraction `u32sub` (release-profile Rust semantics; a
  debug build would abort there instead).
* The recursive cascades `move_out_of_order_blocks_to_staged`,
  `purge_losing_blocks` and `calculate_depth_from_node` are modelled with an
  explicit work list / fuel (the conversion the source itself suggests).  In
  both worklist functions every step deletes one map entry, so the fuel
  chosen at each call site (`map size + 1`) can never be exhausted;
  `calculate_depth_from_node` really can diverge on a cyclic node map, which
  fuel exhaustion (`none`) models.
-/

/-- `2^32`, the modulus of `u32` arithmetic. -/
def u32Mod : Nat := 4294967296

/-- Wrapping `u32` subtraction (release-profile Rust semantics). -/
def u32sub (a b : Nat) : Nat := (a + (u32Mod - b % u32Mod)) % u32Mod

/-- `BlockInfo { hash, prev_hash }` from `block_cache.rs`. -/
structure BlockInfo where
  hash : Nat
  prev_hash : Nat
deriving DecidableEq

/-- The part of `bitcoin::block::Block` the cache observes: its own hash and
its parent hash. -/
structure Block where
  hash : Nat
  prev_hash : Nat
deriving DecidableEq

/-- `TreeNode` from `block_cache.rs`. -/
structure TreeNode where
  block_info : BlockInfo
  parent : Option Nat
  children : List Nat
  orig_level : Nat
deriving DecidableEq

/-- `TreeNode::new`. -/
def TreeNode.new (bi : BlockInfo) : TreeNode :=
  { block_info := bi, parent := none, children := [], orig_level := 0 }

/-- Association-list model of `HashMap<BlockHash, _>`: lookup. -/
def mlookup {α : Type} : List (Nat × α) → Nat → Option α
  | [], _ => none
  | e :: rest, k => if e.1 = k then some e.2 else mlookup rest k

/-- Association-list model of `HashMap::insert`: replace the entry when the
key is present, append otherwise. -/
def minsert {α : Type} : List (Nat × α) → Nat → α → List (Nat × α)
  | [], k, v => [(k, v)]
  | e :: rest, k, v => if e.1 = k then (k, v) :: rest else e :: minsert rest k v

/-- Association-list model of `HashMap::remove` (the removed value is read
with `mlookup` beforehand where the source uses it). -/
def merase {α : Type} : List (Nat × α) → Nat → List (Nat × α)
  | [], _ => []
  | e :: rest, k => if e.1 = k then merase rest k else e :: merase rest k

/-- The key list of an association map. -/
def mkeys {α : Type} (m : List (Nat × α)) : List Nat := m.map (fun e => e.1)

/-- `HashSet::insert` on the duplicate-free child list. -/
def insertChild (cs : List Nat) (h : Nat) : List Nat :=
  if h ∈ cs then cs else cs ++ [h]

abbrev NodeMap := List (Nat × TreeNode)
abbrev PendingMap := List (Nat × Block)
abbrev OooMap := List (Nat × List BlockInfo)

/-- `StagedBlocks` from `block_cache.rs`. -/
structure StagedBlocks where
  tree_root : Option Nat
  nodes : NodeMap
  tree_depth : Nat
  root_removed_cnt : Nat
deriving DecidableEq

/-- `StagedBlocks::new`. -/
def StagedBlocks.new : StagedBlocks :=
  { tree_root := none, nodes := [], tree_depth := 0, root_removed_cnt := 0 }

/-- `StagedBlocks::add_block_info`.  `none` models the
`expect("parent node expected")` panic. -/
def StagedBlocks.add_block_info (s : StagedBlocks) (bi : BlockInfo) :
    Option StagedBlocks :=
  match s.tree_root with
  | none =>
    -- if the tree is empty, this is the first root node
    let new_node := { TreeNode.new bi with orig_level := 1 }
    some { s with tree_root := some bi.hash,
                  nodes := minsert s.nodes bi.hash new_node }
  | some _ =>
    match mlookup s.nodes bi.prev_hash with
    | none => none
    | some parent_node =>
      let new_node : TreeNode :=
        { block_info := bi, parent := some parent_node.block_info.hash,
          children := [], orig_level := parent_node.orig_level + 1 }
      let nodes1 := minsert s.nodes bi.prev_hash
        { parent_node with children := insertChild parent_node.children bi.hash }
      let depth := u32sub new_node.orig_level s.root_removed_cnt
      let nodes2 := minsert nodes1 bi.hash new_node
      some { s with nodes := nodes2,
                    tree_depth := if s.tree_depth < depth then depth else s.tree_depth }

/-- The source's `for` loop over a node's children accumulating the maximum
subtree depth, abstracted over the per-child depth computation `f`
(`none` propagates a panic from `f`). -/
def depth_fold (f : Nat → Option Nat) : List Nat → Option Nat
  | [] => some 0
  | c :: rest =>
    match f c, depth_fold f rest with
    | some d, some m => some (max d m)
    | _, _ => none

/-- `StagedBlocks::calculate_depth_from_node`.  `none` models the
`expect("node expected")` panic, and fuel exhaustion the divergence a cyclic
node map would cause. -/
def calculate_depth_from_node (nodes : NodeMap) : Nat → Nat → Option Nat
  | 0, _ => none
  | fuel + 1, block_hash =>
    match mlookup nodes block_hash with
    | none => none
    | some node =>
      match depth_fold (fun c => calculate_depth_from_node nodes fuel c) node.children with
      | none => none
      | some max_depth => some (max_depth + 1)

/-- The winner-selection loop of `remove_block_info_if_ready`: scan the
children, keeping the first child whose subtree depth strictly exceeds the
running maximum. -/
def winner_scan (nodes : NodeMap) (fuel : Nat) :
    List Nat → Option Nat → Nat → Option (Option Nat × Nat)
  | [], best, maxd => some (best, maxd)
  | c :: rest, best, maxd =>
    match calculate_depth_from_node nodes fuel c with
    | none => none
    | some d =>
      if maxd < d then winner_scan nodes fuel rest (some c) d
      else winner_scan nodes fuel rest best maxd

/-- `StagedBlocks::remove_block_info_if_ready`.  `none` models the `expect`
panics (`root hash expected`, `root node expected`, `child hash expected`). -/
def StagedBlocks.remove_block_info_if_ready (s : StagedBlocks)
    (depth_threshold : Nat) :
    Option ((Option BlockInfo × Option (List Nat)) × StagedBlocks) :=
  if s.tree_depth < depth_threshold ∨ s.tree_depth = 0 then
    some ((none, none), s)
  else
    match s.tree_root with
    | none => none
    | some root_hash =>
      match mlookup s.nodes root_hash with
      | none => none
      | some root_node =>
        let nodes1 := merase s.nodes root_hash
        let child_cnt := root_node.children.length
        let step2 : Option (Option Nat × Option (List Nat)) :=
          if 1 < child_cnt then
            match winner_scan nodes1 (nodes1.length + 1) root_node.children none 0 with
            | none => none
            | some (best, _) =>
              match best with
              | none => none
              | some winning_child_hash =>
                some (some winning_child_hash,
                  some (root_node.children.filter (fun c => ¬ c = winning_child_hash)))
          else if child_cnt = 1 then
            match root_node.children.getLast? with
            | none => none
            | some child_hash => some (some child_hash, none)
          else
            some (none, none)
        match step2 with
        | none => none
        | some (new_root_key, losing_children_opt) =>
          let s1 := { s with nodes := nodes1,
                             tree_depth := s.tree_depth - 1,
                             root_removed_cnt := s.root_removed_cnt + 1 }
          let s2 :=
            match new_root_key with
            | none => { s1 with tree_root := none }
            | some k =>
              match mlookup s1.nodes k with
              | none => { s1 with tree_root := none }
              | some new_root_node =>
                { s1 with
                  nodes := minsert s1.nodes k { new_root_node with parent := none },
                  tree_root := some new_root_node.block_info.hash }
          some ((some root_node.block_info, losing_children_opt), s2)

/-- `BlockCache` from `block_cache.rs`. -/
structure BlockCache where
  pending_full_blocks : PendingMap
  out_of_order_blocks : OooMap
  staged_blocks : StagedBlocks
deriving DecidableEq

/-- `BlockCache::new`. -/
def BlockCache.new : BlockCache :=
  { pending_full_blocks := [], out_of_order_blocks := [],
    staged_blocks := StagedBlocks.new }

/-- `BlockCache::pending_cnt`. -/
def BlockCache.pending_cnt (c : BlockCache) : Nat := c.pending_full_blocks.length

/-- `BlockCache::staged_cnt`. -/
def BlockCache.staged_cnt (c : BlockCache) : Nat := c.staged_blocks.nodes.length

/-- `BlockCache::out_of_order_cnt`. -/
def BlockCache.out_of_order_cnt (c : BlockCache) : Nat := c.out_of_order_blocks.length

/-- Total number of descriptors parked in out-of-order holding (sum of the
per-key list lengths). -/
def oooAll (ooo : OooMap) : List BlockInfo := (ooo.map (fun e => e.2)).flatten

def oooTotal (ooo : OooMap) : Nat := (oooAll ooo).length

def oooHashes (ooo : OooMap) : List Nat := (oooAll ooo).map (fun bi => bi.hash)

/-- `move_out_of_order_blocks_to_staged`, converted to the explicit work
list the source suggests for its recursive cascade: pop a descriptor, stage
it, then splice the descriptors parked under its hash (removing their map
entry first, as the source's `remove` does) in front of the remaining work.
This visits descriptors in exactly the source's depth-first order.  Every
fuel-consuming step removes one `out_of_order` key, so the fuel passed at
the call site (`oooTotal + length + 1`) is never exhausted; `none` therefore
models only the staging panic. -/
def drainWork : Nat → StagedBlocks → OooMap → List BlockInfo →
    Option (StagedBlocks × OooMap)
  | _, s, ooo, [] => some (s, ooo)
  | 0, _, _, _ :: _ => none
  | fuel + 1, s, ooo, bi :: rest =>
    match s.add_block_info bi with
    | none => none
    | some s1 =>
      match mlookup ooo bi.hash with
      | none => drainWork fuel s1 ooo rest
      | some vec => drainWork fuel s1 (merase ooo bi.hash) (vec ++ rest)

/-- `BlockCache::move_out_of_order_blocks_to_staged`. -/
def move_out_of_order_blocks_to_staged (s : StagedBlocks) (ooo : OooMap)
    (prev_hash : Nat) : Option (StagedBlocks × OooMap) :=
  match mlookup ooo prev_hash with
  | none => some (s, ooo)
  | some vec =>
    drainWork (oooTotal ooo + vec.length + 1) s (merase ooo prev_hash) vec

/-- `BlockCache::add_block_info`. -/
def BlockCache.add_block_info (c : BlockCache) (bi : BlockInfo) :
    Option BlockCache :=
  if c.staged_blocks.tree_root.isNone ∨
      (mlookup c.staged_blocks.nodes bi.prev_hash).isSome then
    match c.staged_blocks.add_block_info bi with
    | none => none
    | some staged1 =>
      match move_out_of_order_blocks_to_staged staged1 c.out_of_order_blocks bi.hash with
      | none => none
      | some (staged2, ooo2) =>
        some { c with staged_blocks := staged2, out_of_order_blocks := ooo2 }
  else
    let parked := (mlookup c.out_of_order_blocks bi.prev_hash).getD [] ++ [bi]
    some { c with
      out_of_order_blocks := minsert c.out_of_order_blocks bi.prev_hash parked }

/-- `BlockCache::add_block_impl`. -/
def BlockCache.add_block_impl (c : BlockCache) (bi : BlockInfo) (b : Block) :
    Option BlockCache :=
  BlockCache.add_block_info
    { c with pending_full_blocks := minsert c.pending_full_blocks bi.hash b } bi

/-- `BlockCache::add_block`. -/
def BlockCache.add_block (c : BlockCache) (b : Block) : Option BlockCache :=
  c.add_block_impl { hash := b.hash, prev_hash := b.prev_hash } b

/-- `BlockCache::purge_losing_blocks`, converted to the explicit work list
the source suggests: remove the payload and the node of each hash (the
`expect` panics are `none`) and splice the node's children in front of the
remaining work — the source's depth-first order.  Every step removes one
node, so the fuel passed at the call site (`nodes.length + 1`) is never
exhausted. -/
def purge_losing_blocks : Nat → PendingMap → NodeMap → List Nat →
    Option (PendingMap × NodeMap)
  | _, p, n, [] => some (p, n)
  | 0, _, _, _ :: _ => none
  | fuel + 1, p, n, h :: rest =>
    match mlookup p h, mlookup n h with
    | some _, some node =>
      purge_losing_blocks fuel (merase p h) (merase n h) (node.children ++ rest)
    | _, _ => none

/-- `BlockCache::remove_block_if_ready_impl`. -/
def BlockCache.remove_block_if_ready_impl (c : BlockCache)
    (depth_threshold : Nat) :
    Option ((Option BlockInfo × Option Block) × BlockCache) :=
  match c.staged_blocks.remove_block_info_if_ready depth_threshold with
  | none => none
  | some ((block_info_opt, losing_children_opt), staged1) =>
    match block_info_opt with
    | none => some ((none, none), { c with staged_blocks := staged1 })
    | some block_info =>
      let afterPurge : Option (PendingMap × NodeMap) :=
        match losing_children_opt with
        | none => some (c.pending_full_blocks, staged1.nodes)
        | some losing_children =>
          purge_losing_blocks (staged1.nodes.length + 1)
            c.pending_full_blocks staged1.nodes losing_children
      match afterPurge with
      | none => none
      | some (p2, n2) =>
        let block_opt := mlookup p2 block_info.hash
        some ((some block_info, block_opt),
          { c with pending_full_blocks := merase p2 block_info.hash,
                   staged_blocks := { staged1 with nodes := n2 } })

/-- `BlockCache::remove_block_if_ready`. -/
def BlockCache.remove_block_if_ready (c : BlockCache) (depth_threshold : Nat) :
    Option (Option Block × BlockCache) :=
  match c.remove_block_if_ready_impl depth_threshold with
  | none => none
  | some ((_, block_opt), c1) => some (block_opt, c1)

/-- A public operation of the cache façade. -/
inductive Op where
  | add (b : Block)
  | remove (depth_threshold : Nat)
deriving DecidableEq

def execOp (c : BlockCache) : Op → Option BlockCache
  | .add b => c.add_block b
  | .remove t =>
    match c.remove_block_if_ready t with
    | none => none
    | some (_, c1) => some c1

def execOps (c : BlockCache) : List Op → Option BlockCache
  | [] => some c
  | op :: rest =>
    match execOp c op with
    | none => none
    | some c1 => execOps c1 rest

/-- Shorthand for a block with the given hash and parent hash (the test uses
one-digit tags `"0".."C"`; here `A, B, C` are `10, 11, 12`). -/
def mkB (h p : Nat) : Block := { hash := h, prev_hash := p }

/-- The spec's depth formula: `max(node.orig_level for node in nodes)`
(`0` when the node map is empty). -/
def maxOrigLevel (s : StagedBlocks) : Nat :=
  s.nodes.foldl (fun m e => max m e.2.orig_level) 0

/-- The map has duplicate-free keys (always true for maps built by the
cache's operations). -/
def NodupK {α : Type} (m : List (Nat × α)) : Prop := (mkeys m).Nodup

/-- Every tree node is stored under its own hash. -/
def keyConsistent (n : NodeMap) : Prop := ∀ e ∈ n, e.2.block_info.hash = e.1

/-- Every pending payload is stored under its own hash. -/
def pendConsistent (p : PendingMap) : Prop := ∀ e ∈ p, e.2.hash = e.1

/-- Every staged node's payload is pending. -/
def nodesInPending (c : BlockCache) : Prop :=
  ∀ e ∈ c.staged_blocks.nodes, (mlookup c.pending_full_blocks e.1).isSome

/-- A child's node records the parent's hash as its `prev_hash`. -/
def childLink (n : NodeMap) : Prop :=
  ∀ e ∈ n, ∀ e' ∈ n, e'.1 ∈ e.2.children →
    e'.2.block_info.prev_hash = e.2.block_info.hash

/-- The pending payload stored under a staged node's hash carries the same
two identifiers as the node's descriptor. -/
def nodePayloadMatch (c : BlockCache) : Prop :=
  ∀ e ∈ c.staged_blocks.nodes, ∀ pe ∈ c.pending_full_blocks,
    pe.1 = e.2.block_info.hash →
      pe.2.hash = e.2.block_info.hash ∧
      pe.2.prev_hash = e.2.block_info.prev_hash

instance (n : NodeMap) : Decidable (keyConsistent n) :=
  List.decidableBAll _ n

instance (p : PendingMap) : Decidable (pendConsistent p) :=
  List.decidableBAll _ p

instance (c : BlockCache) : Decidable (nodesInPending c) :=
  List.decidableBAll _ c.staged_blocks.nodes

instance (n : NodeMap) : Decidable (childLink n) :=
  List.decidableBAll _ n

instance (c : BlockCache) : Decidable (nodePayloadMatch c) :=
  List.decidableBAll _ c.staged_blocks.nodes

instance {α : Type} (m : List (Nat × α)) : Decidable (NodupK m) :=
  List.nodupDecidable _

/-- The structural invariant behind the pending/staged/parked balance: all
three maps have duplicate-free keys, nodes sit under their own hash, the
pending keys are exactly the staged keys together with the parked
descriptors' hashes, and the latter two collections are disjoint and
duplicate-free. -/
def CacheInv (c : BlockCache) : Prop :=
  NodupK c.pending_full_blocks ∧
  NodupK c.staged_blocks.nodes ∧
  NodupK c.out_of_order_blocks ∧
  keyConsistent c.staged_blocks.nodes ∧
  (∀ k, k ∈ mkeys c.pending_full_blocks ↔
    (k ∈ mkeys c.staged_blocks.nodes ∨ k ∈ oooHashes c.out_of_order_blocks)) ∧
  (mkeys c.staged_blocks.nodes ++ oooHashes c.out_of_order_blocks).Nodup

/-- The insertion order of scenario 1 of the spec (and of the test in
`block_cache.rs`). -/
def scenario1Adds : List Op :=
  [.add (mkB 0 0), .add (mkB 8 5), .add (mkB 4 2), .add (mkB 5 2),
   .add (mkB 1 0), .add (mkB 2 0), .add (mkB 10 7), .add (mkB 7 4),
   .add (mkB 9 6), .add (mkB 3 1), .add (mkB 6 3), .add (mkB 11 10),
   .add (mkB 12 11)]

/-- The cache after the scenario-1 inserts. -/
def sc1 : Option BlockCache := execOps BlockCache.new scenario1Adds

/-- First threshold-4 promotion on the scenario-1 cache. -/
def sc1r1 : Option (Option Block × BlockCache) :=
  sc1.bind (fun c => c.remove_block_if_ready 4)

/-- Second threshold-4 promotion. -/
def sc1r2 : Option (Option Block × BlockCache) :=
  (sc1r1.map Prod.snd).bind (fun c => c.remove_block_if_ready 4)

/-- Third threshold-4 promotion. -/
def sc1r3 : Option (Option Block × BlockCache) :=
  (sc1r2.map Prod.snd).bind (fun c => c.remove_block_if_ready 4)

/-- The cache state reached by running `ops` from a fresh cache (the fresh
cache itself if the run aborts — used only on concrete runs that succeed). -/
def runCache (ops : List Op) : BlockCache :=
  (execOps BlockCache.new ops).getD BlockCache.new

/-- The hashes of the blocks added by an operation sequence, in order. -/
def addHashes : List Op → List Nat
  | [] => []
  | .add b :: rest => b.hash :: addHashes rest
  | .remove _ :: rest => addHashes rest

/-- Operation sequences that leave a promotion epoch rooted at `w`
undisturbed: blocks may be added as long as neither the added hash nor any
hash drained from out-of-order holding is `w` itself, and
`remove_block_if_ready` may be called as long as it declines (depth below
threshold or zero). -/
inductive Quiet (w : Nat) : BlockCache → BlockCache → Prop where
  | refl (c : BlockCache) : Quiet w c c
  | add (c₁ c₂ c₃ : BlockCache) (b : Block) : Quiet w c₁ c₂ → b.hash ≠ w →
      w ∉ oooHashes c₂.out_of_order_blocks →
      execOp c₂ (.add b) = some c₃ → Quiet w c₁ c₃
  | remove (c₁ c₂ c₃ : BlockCache) (t : Nat) : Quiet w c₁ c₂ →
      (c₂.staged_blocks.tree_depth < t ∨ c₂.staged_blocks.tree_depth = 0) →
      execOp c₂ (.remove t) = some c₃ → Quiet w c₁ c₃

/-- C1: the spec's depth-correctness invariant fails on the code already
after a single `add_block` on a fresh cache: the empty-tree insertion path
of `StagedBlocks::add_block_info` never updates `tree_depth`, so
`tree_depth = 0` while `max(orig_level) − root_removed_cnt = 1` and the node
map is non-empty. -/
theorem c1_depth_invariant_fails :
    (execOps BlockCache.new [.add (mkB 1 0)]).map
        (fun c => (c.staged_blocks.tree_depth,
                   maxOrigLevel c.staged_blocks - c.staged_blocks.root_removed_cnt,
                   c.staged_cnt))
      = some (0, 1, 1) := by decide

/-- C2: inserting into an emptied tree (here `root_removed_cnt = 2` after
promoting a two-block chain to emptiness) makes the new block the root with
`orig_level = 1`, not `root_removed_cnt + 1 = 3`, and leaves
`tree_depth = 0` instead of setting it to `1`. -/
theorem c2_empty_insert_fails :
    (execOps BlockCache.new
        [.add (mkB 1 0), .add (mkB 2 1), .remove 1, .remove 1, .add (mkB 3 0)]).map
        (fun c => (c.staged_blocks.tree_root,
                   (mlookup c.staged_blocks.nodes 3).map TreeNode.orig_level,
                   c.staged_blocks.tree_depth,
                   c.staged_blocks.root_removed_cnt))
      = some (some 3, some 1, 0, 2) := by decide

/-- C3: scenario 1/2 of the spec: after the thirteen out-of-order inserts the
cache stages all thirteen descriptors at depth 7 with nothing parked; three
threshold-4 promotions return blocks `0`, `2`, `4` in order, leaving depth 4,
three removed roots, root `7`, and the losing branches `{1,3,6,9}` and
`{5,8}` purged from both the tree and the pending store. -/
theorem c3_scenario1 :
    sc1.map (fun c => (c.staged_cnt, c.out_of_order_cnt, c.staged_blocks.tree_depth))
        = some (13, 0, 7) ∧
    sc1r1.map Prod.fst = some (some (mkB 0 0)) ∧
    sc1r2.map Prod.fst = some (some (mkB 2 0)) ∧
    sc1r3.map Prod.fst = some (some (mkB 4 2)) ∧
    sc1r3.map (fun r => (r.2.staged_blocks.tree_depth,
                         r.2.staged_blocks.root_removed_cnt,
                         r.2.staged_blocks.tree_root)) = some (4, 3, some 7) ∧
    sc1r3.map (fun r => [1, 3, 6, 9, 5, 8].all
        (fun h => (mlookup r.2.staged_blocks.nodes h).isNone &&
                  (mlookup r.2.pending_full_blocks h).isNone)) = some true := by
  refine ⟨by decide, by decide, by decide, by decide, by decide, by decide⟩

/-- C5 counterexample: a fresh cache holding exactly one staged block has a
non-empty tree (`staged_cnt = 1`), yet `remove_block_if_ready 0` promotes
nothing (the empty-tree insertion path left `tree_depth = 0`), contradicting
the claim that threshold 0 promotes on any non-empty tree. -/
theorem c5_counterexample :
    (execOps BlockCache.new [.add (mkB 1 0)]).map
        (fun c => (c.staged_cnt, (c.remove_block_if_ready 0).map Prod.fst))
      = some (1, some none) := by decide

/-- C6 counterexample: one operation sequence whose successive successful
`remove_block_if_ready` calls return the blocks `(1,0)`, `(2,1)` and then —
after the tree was promoted to emptiness and refilled with an unrelated
chain — `(5,9)`, whose `prev_hash` (9) differs from the previously returned
hash (2). -/
theorem c6_counterexample :
    ((execOps BlockCache.new [.add (mkB 1 0), .add (mkB 2 1)]).bind
        (fun c => (c.remove_block_if_ready 1).map Prod.fst)) = some (some (mkB 1 0)) ∧
    ((execOps BlockCache.new [.add (mkB 1 0), .add (mkB 2 1), .remove 1]).bind
        (fun c => (c.remove_block_if_ready 1).map Prod.fst)) = some (some (mkB 2 1)) ∧
    ((execOps BlockCache.new [.add (mkB 1 0), .add (mkB 2 1), .remove 1, .remove 1,
        .add (mkB 5 9), .add (mkB 6 5), .add (mkB 7 6)]).bind
        (fun c => (c.remove_block_if_ready 1).map Prod.fst)) = some (some (mkB 5 9)) ∧
    (mkB 5 9).prev_hash ≠ (mkB 2 1).hash := by
  refine ⟨by decide, by decide, by decide, by decide⟩

/-- C7 counterexample: adding the descriptor `(2,1)` a second time while its
node has the child `3` resets that node's children to `∅`, so node `3` still
records parent `2` but `2` no longer lists it — the spec's tree-connectivity
invariant fails — and the subsequent threshold-0 promotions abort
(`execOps = none`), while the same promotions succeed without the duplicate
add. -/
theorem c7_counterexample :
    (execOps BlockCache.new
        [.add (mkB 1 0), .add (mkB 2 1), .add (mkB 3 2), .add (mkB 2 1)]).map
        (fun c => ((mlookup c.staged_blocks.nodes 2).map TreeNode.children,
                   (mlookup c.staged_blocks.nodes 3).map TreeNode.parent))
      = some (some [], some (some 2)) ∧
    execOps BlockCache.new
        [.add (mkB 1 0), .add (mkB 2 1), .add (mkB 3 2), .add (mkB 2 1),
         .remove 0, .remove 0, .remove 0] = none ∧
    (execOps BlockCache.new
        [.add (mkB 1 0), .add (mkB 2 1), .add (mkB 3 2),
         .remove 0, .remove 0, .remove 0]).isSome = true := by
  refine ⟨by decide, by decide, by decide⟩

/-! ### Association-map lemmas -/

theorem mlookup_mem {α : Type} {m : List (Nat × α)} {k : Nat} {v : α}
    (h : mlookup m k = some v) : (k, v) ∈ m := by
  induction m with
  | nil => simp [mlookup] at h
  | cons e rest ih =>
    by_cases hek : e.1 = k
    · simp only [mlookup, hek, if_pos] at h
      have he : (k, v) = e := by
        cases h
        rw [← hek]
      rw [he]
      exact List.mem_cons_self _ _
    · simp only [mlookup, hek, if_neg, if_false] at h
      exact List.mem_cons_of_mem _ (ih h)

theorem mem_merase {α : Type} {m : List (Nat × α)} {k : Nat} {e : Nat × α}
    (h : e ∈ merase m k) : e ∈ m ∧ e.1 ≠ k := by
  induction m with
  | nil => simp [merase] at h
  | cons e2 rest ih =>
    by_cases hek : e2.1 = k
    · rw [merase, if_pos hek] at h
      have := ih h
      exact ⟨List.mem_cons_of_mem _ this.1, this.2⟩
    · rw [merase, if_neg hek] at h
      rcases List.mem_cons.mp h with h | h
      · subst h
        exact ⟨List.mem_cons_self _ _, hek⟩
      · have := ih h
        exact ⟨List.mem_cons_of_mem _ this.1, this.2⟩

theorem mlookup_merase_self {α : Type} (m : List (Nat × α)) (k : Nat) :
    mlookup (merase m k) k = none := by
  induction m with
  | nil => simp [merase, mlookup]
  | cons e rest ih =>
    by_cases hek : e.1 = k
    · rw [merase, if_pos hek]
      exact ih
    · rw [merase, if_neg hek, mlookup, if_neg hek]
      exact ih

theorem mlookup_merase_ne {α : Type} (m : List (Nat × α)) {k j : Nat}
    (h : j ≠ k) : mlookup (merase m k) j = mlookup m j := by
  induction m with
  | nil => simp [merase]
  | cons e rest ih =>
    by_cases hek : e.1 = k
    · have hej : ¬ e.1 = j := fun hh => h (hek ▸ hh ▸ rfl)
      rw [merase, if_pos hek, mlookup, if_neg hej]
      exact ih
    · rw [merase, if_neg hek, mlookup, mlookup]
      by_cases hej : e.1 = j
      · rw [if_pos hej, if_pos hej]
      · rw [if_neg hej, if_neg hej]
        exact ih

theorem mlookup_minsert_self {α : Type} (m : List (Nat × α)) (k : Nat) (v : α) :
    mlookup (minsert m k v) k = some v := by
  induction m with
  | nil => simp [minsert, mlookup]
  | cons e rest ih =>
    by_cases hek : e.1 = k
    · rw [minsert, if_pos hek, mlookup, if_pos rfl]
    · rw [minsert, if_neg hek, mlookup, if_neg hek]
      exact ih

theorem mlookup_minsert_ne {α : Type} (m : List (Nat × α)) {k j : Nat} (v : α)
    (h : j ≠ k) : mlookup (minsert m k v) j = mlookup m j := by
  induction m with
  | nil =>
    have : ¬ (k = j) := fun hh => h hh.symm
    simp [minsert, mlookup, this]
  | cons e rest ih =>
    by_cases hek : e.1 = k
    · have hkj : ¬ (k = j) := fun hh => h hh.symm
      have hej : ¬ e.1 = j := fun hh => hkj (hek ▸ hh)
      rw [minsert, if_pos hek, mlookup, mlookup, if_neg hej]
      simp [hkj]
    · rw [minsert, if_neg hek, mlookup, mlookup]
      by_cases hej : e.1 = j
      · rw [if_pos hej, if_pos hej]
      · rw [if_neg hej, if_neg hej]
        exact ih

theorem mem_minsert {α : Type} {m : List (Nat × α)} {k : Nat} {v : α}
    {e : Nat × α} (h : e ∈ minsert m k v) : e ∈ m ∨ e = (k, v) := by
  induction m with
  | nil =>
    rw [minsert] at h
    right
    simpa using h
  | cons e2 rest ih =>
    by_cases hek : e2.1 = k
    · rw [minsert, if_pos hek] at h
      rcases List.mem_cons.mp h with h | h
      · right; exact h
      · left; exact List.mem_cons_of_mem _ h
    · rw [minsert, if_neg hek] at h
      rcases List.mem_cons.mp h with h | h
      · left; subst h; exact List.mem_cons_self _ _
      · rcases ih h with h2 | h2
        · left; exact List.mem_cons_of_mem _ h2
        · right; exact h2

theorem mem_of_getLast {α : Type} {l : List α} {a : α}
    (h : l.getLast? = some a) : a ∈ l := by
  induction l with
  | nil => simp at h
  | cons x xs ih =>
    cases xs with
    | nil =>
      simp [List.getLast?] at h
      subst h
      exact List.mem_cons_self _ _
    | cons y ys =>
      rw [List.getLast?_cons_cons] at h
      exact List.mem_cons_of_mem _ (ih h)

/-! ### Soundness of the winner-selection scan -/

theorem calculate_depth_pos {nodes : NodeMap} {fuel h : Nat} {d : Nat}
    (hd : calculate_depth_from_node nodes fuel h = some d) : 1 ≤ d := by
  cases fuel with
  | zero => simp [calculate_depth_from_node] at hd
  | succ fuel =>
    rw [calculate_depth_from_node] at hd
    split at hd
    · exact absurd hd (by simp)
    · split at hd
      · exact absurd hd (by simp)
      · cases hd
        omega

/-- Soundness of the source's winner loop: on success the returned
candidate/maximum pair either is the untouched input pair and every scanned
child has depth at most the input maximum, or it is a scanned child whose
depth strictly exceeds the input maximum and bounds every scanned child. -/
theorem winner_scan_sound (nodes : NodeMap) (fuel : Nat) :
    ∀ cs best maxd res, winner_scan nodes fuel cs best maxd = some res →
      (res = (best, maxd) ∧
        ∀ c ∈ cs, ∀ d, calculate_depth_from_node nodes fuel c = some d → d ≤ maxd) ∨
      (∃ w dw, res = (some w, dw) ∧ w ∈ cs ∧
        calculate_depth_from_node nodes fuel w = some dw ∧ maxd < dw ∧
        ∀ c ∈ cs, ∀ d, calculate_depth_from_node nodes fuel c = some d → d ≤ dw) := by
  intro cs
  induction cs with
  | nil =>
    intro best maxd res h
    rw [winner_scan] at h
    left
    constructor
    · exact (Option.some_inj.mp h).symm
    · simp
  | cons c rest ih =>
    intro best maxd res h
    rw [winner_scan] at h
    rcases hc : calculate_depth_from_node nodes fuel c with _ | d
    · rw [hc] at h
      simp at h
    · rw [hc] at h
      simp only at h
      by_cases hlt : maxd < d
      · rw [if_pos hlt] at h
        rcases ih (some c) d res h with ⟨hres, hbound⟩ | ⟨w, dw, hres, hw, hcw, hlt2, hbound⟩
        · right
          refine ⟨c, d, hres, List.mem_cons_self _ _, hc, hlt, ?_⟩
          intro c2 hc2 d2 hd2
          rcases List.mem_cons.mp hc2 with h2 | h2
          · subst h2
            rw [hc] at hd2
            cases hd2
            exact Nat.le_refl _
          · exact hbound c2 h2 d2 hd2
        · right
          refine ⟨w, dw, hres, List.mem_cons_of_mem _ hw, hcw, Nat.lt_trans hlt hlt2, ?_⟩
          intro c2 hc2 d2 hd2
          rcases List.mem_cons.mp hc2 with h2 | h2
          · subst h2
            rw [hc] at hd2
            cases hd2
            exact Nat.le_of_lt hlt2
          · exact hbound c2 h2 d2 hd2
      · rw [if_neg hlt] at h
        rcases ih best maxd res h with ⟨hres, hbound⟩ | ⟨w, dw, hres, hw, hcw, hlt2, hbound⟩
        · left
          refine ⟨hres, ?_⟩
          intro c2 hc2 d2 hd2
          rcases List.mem_cons.mp hc2 with h2 | h2
          · subst h2
            rw [hc] at hd2
            cases hd2
            omega
          · exact hbound c2 h2 d2 hd2
        · right
          refine ⟨w, dw, hres, List.mem_cons_of_mem _ hw, hcw, hlt2, ?_⟩
          intro c2 hc2 d2 hd2
          rcases List.mem_cons.mp hc2 with h2 | h2
          · subst h2
            rw [hc] at hd2
            cases hd2
            omega
          · exact hbound c2 h2 d2 hd2

/-- Shape of a successful root promotion at the staged-tree level: the root
existed, the returned descriptor is its stored one, the counters move by
one, and the surviving tree is the root-erased map, either rootless or
re-rooted at some child of the departed root (with its parent pointer
cleared). -/
theorem staged_fire_shape {s : StagedBlocks} {t : Nat} {bi : BlockInfo}
    {lo : Option (List Nat)} {s1 : StagedBlocks}
    (h : s.remove_block_info_if_ready t = some ((some bi, lo), s1)) :
    ∃ rk rn, s.tree_root = some rk ∧ mlookup s.nodes rk = some rn ∧
      bi = rn.block_info ∧
      s1.root_removed_cnt = s.root_removed_cnt + 1 ∧
      s1.tree_depth = s.tree_depth - 1 ∧
      t ≤ s.tree_depth ∧ s.tree_depth ≠ 0 ∧
      ((s1.tree_root = none ∧ s1.nodes = merase s.nodes rk) ∨
       (∃ k nw, k ∈ rn.children ∧ mlookup (merase s.nodes rk) k = some nw ∧
         s1.tree_root = some nw.block_info.hash ∧
         s1.nodes = minsert (merase s.nodes rk) k { nw with parent := none })) := by
  rw [StagedBlocks.remove_block_info_if_ready] at h
  split at h
  · exact absurd h (by simp)
  · rename_i hcond
    push_neg at hcond
    split at h
    · exact absurd h (by simp)
    · rename_i rk hrk
      rcases hrn : mlookup s.nodes rk with _ | rn
      · rw [hrn] at h
        exact absurd h (by simp)
      · rw [hrn] at h
        simp only at h
        split at h
        · exact absurd h (by simp)
        · rename_i nrk lo2 heq
          refine ⟨rk, rn, hrk, hrn, ?_⟩
          have hbi : bi = rn.block_info := by
            have := congrArg (fun x => x.map (fun y => y.1.1)) h
            simpa using this.symm
          have hlo : lo = lo2 := by
            have := congrArg (fun x => x.map (fun y => y.1.2)) h
            simpa using this.symm
          have hs1 : s1 =
              (match nrk with
               | none =>
                 { s with nodes := merase s.nodes rk,
                          tree_depth := s.tree_depth - 1,
                          root_removed_cnt := s.root_removed_cnt + 1,
                          tree_root := none }
               | some k =>
                 match mlookup (merase s.nodes rk) k with
                 | none =>
                   { s with nodes := merase s.nodes rk,
                            tree_depth := s.tree_depth - 1,
                            root_removed_cnt := s.root_removed_cnt + 1,
                            tree_root := none }
                 | some new_root_node =>
                   { s with
                     nodes := minsert (merase s.nodes rk) k
                       { new_root_node with parent := none },
                     tree_depth := s.tree_depth - 1,
                     root_removed_cnt := s.root_removed_cnt + 1,
                     tree_root := some new_root_node.block_info.hash } : StagedBlocks) := by
            have := congrArg (fun x => x.map (fun y => y.2)) h
            simp only [Option.map_some] at this
            cases this
            cases nrk with
            | none => rfl
            | some k =>
              cases hnw : mlookup (merase s.nodes rk) k with
              | none => simp only [hnw]
              | some nw => simp only [hnw]
          refine ⟨hbi, ?_, ?_, by omega, by omega, ?_⟩
          · cases nrk with
            | none => rw [hs1]
            | some k =>
              cases hnw : mlookup (merase s.nodes rk) k with
              | none => rw [hs1]; simp [hnw]
              | some nw => rw [hs1]; simp [hnw]
          · cases nrk with
            | none => rw [hs1]
            | some k =>
              cases hnw : mlookup (merase s.nodes rk) k with
              | none => rw [hs1]; simp [hnw]
              | some nw => rw [hs1]; simp [hnw]
          · -- the re-rooting disjunction, by cases on how `step2` was built
            have hkmem : ∀ k, nrk = some k → k ∈ rn.children := by
              intro k hk
              subst hk
              split at heq
              · -- more than one child: the winner came from the scan
                rcases hscan : winner_scan (merase s.nodes rk)
                    ((merase s.nodes rk).length + 1) rn.children none 0 with _ | res
                · rw [hscan] at heq
                  exact absurd heq (by simp)
                · rw [hscan] at heq
                  rcases res with ⟨best, d2⟩
                  rcases winner_scan_sound _ _ _ _ _ _ hscan with ⟨hres, _⟩ |
                    ⟨w, dw, hres, hw, _, _, _⟩
                  · cases hres
                    exact absurd heq (by simp)
                  · cases hres
                    simp only at heq
                    have : w = k := by
                      have := congrArg (fun x => x.map (fun y => y.1)) heq
                      simpa using this
                    rw [← this]
                    exact hw
              · split at heq
                · -- exactly one child: the winner is `children.last()`
                  split at heq
                  · exact absurd heq (by simp)
                  · rename_i c hlast
                    have : c = k := by
                      have := congrArg (fun x => x.map (fun y => y.1)) heq
                      simpa using this
                    rw [← this]
                    exact mem_of_getLast hlast
                · -- no children: `nrk` is `none`, contradiction
                  exact absurd heq (by simp)
            cases nrk with
            | none =>
              left
              rw [hs1]
              exact ⟨rfl, rfl⟩
            | some k =>
              cases hnw : mlookup (merase s.nodes rk) k with
              | none =>
                left
                rw [hs1]
                simp [hnw]
              | some nw =>
                right
                refine ⟨k, nw, hkmem k rfl, hnw, ?_, ?_⟩
                · rw [hs1]; simp [hnw]
                · rw [hs1]; simp [hnw]

/-- A `(None, …)` result of the staged-tree removal can only come from the
early return: the threshold is not met (or the depth is zero) and the staged
tree is untouched. -/
theorem staged_none_shape {s : StagedBlocks} {t : Nat} {lo : Option (List Nat)}
    {s1 : StagedBlocks}
    (h : s.remove_block_info_if_ready t = some ((none, lo), s1)) :
    (s.tree_depth < t ∨ s.tree_depth = 0) ∧ lo = none ∧ s1 = s := by
  rw [StagedBlocks.remove_block_info_if_ready] at h
  split at h
  · rename_i hcond
    refine ⟨hcond, ?_, ?_⟩
    · have := congrArg (fun x => x.map (fun y => y.1.2)) h
      simpa using this.symm
    · have := congrArg (fun x => x.map (fun y => y.2)) h
      simpa using this.symm
  · split at h
    · exact absurd h (by simp)
    · rcases hrn : mlookup s.nodes _ with _ | rn
      · rw [hrn] at h
        exact absurd h (by simp)
      · rw [hrn] at h
        simp only at h
        split at h
        · exact absurd h (by simp)
        · have := congrArg (fun x => x.map (fun y => y.1.1)) h
          simp at this

/-- Pointwise description of `purge_losing_blocks`: surviving node entries
keep their pending entry untouched, missing nodes stay missing, and a node
removed by the purge loses its pending entry with it. -/
theorem purge_lookups :
    ∀ fuel (p : PendingMap) (n : NodeMap) hs p2 n2,
      purge_losing_blocks fuel p n hs = some (p2, n2) →
      (∀ k, mlookup n k = none → mlookup n2 k = none ∧ mlookup p2 k = mlookup p k) ∧
      (∀ k v, mlookup n2 k = some v →
        mlookup n k = some v ∧ mlookup p2 k = mlookup p k) ∧
      (∀ k, mlookup n k ≠ none → mlookup n2 k = none → mlookup p2 k = none) := by
  intro fuel
  induction fuel with
  | zero =>
    intro p n hs p2 n2 h
    cases hs with
    | nil =>
      rw [purge_losing_blocks] at h
      cases h
      exact ⟨fun k hk => ⟨hk, rfl⟩, fun k v hv => ⟨hv, rfl⟩,
        fun k h1 h2 => absurd h2 h1⟩
    | cons x xs => exact absurd h (by rw [purge_losing_blocks]; simp)
  | succ fuel ih =>
    intro p n hs p2 n2 h
    cases hs with
    | nil =>
      rw [purge_losing_blocks] at h
      cases h
      exact ⟨fun k hk => ⟨hk, rfl⟩, fun k v hv => ⟨hv, rfl⟩,
        fun k h1 h2 => absurd h2 h1⟩
    | cons x xs =>
      rw [purge_losing_blocks] at h
      rcases hp : mlookup p x with _ | b
      · rw [hp] at h
        exact absurd h (by simp)
      · rw [hp] at h
        rcases hn : mlookup n x with _ | node
        · rw [hn] at h
          exact absurd h (by simp)
        · rw [hn] at h
          simp only at h
          rcases ih (merase p x) (merase n x) (node.children ++ xs) p2 n2 h with
            ⟨ihP1, ihP2, ihP3⟩
          refine ⟨?_, ?_, ?_⟩
          · intro k hk
            have hkx : k ≠ x := fun he => by
              rw [he, hn] at hk
              cases hk
            have h1 := ihP1 k (by rw [mlookup_merase_ne _ hkx]; exact hk)
            exact ⟨h1.1, by rw [h1.2, mlookup_merase_ne _ hkx]⟩
          · intro k v hv
            have h2 := ihP2 k v hv
            have hkx : k ≠ x := fun he => by
              rw [he, mlookup_merase_self] at h2
              cases h2.1
            rw [mlookup_merase_ne _ hkx] at h2
            exact ⟨h2.1, by rw [h2.2, mlookup_merase_ne _ hkx]⟩
          · intro k h1 h2
            by_cases hkx : k = x
            · subst hkx
              have := ihP1 k (mlookup_merase_self _ _)
              rw [this.2, mlookup_merase_self]
            · have : mlookup (merase n x) k ≠ none := by
                rw [mlookup_merase_ne _ hkx]
                exact h1
              have h3 := ihP3 k this h2
              exact h3

/-- In a cache whose tree nodes sit under their own hashes with their
payloads pending, `remove_block_if_ready` can answer `None` only through the
early return, and then the whole cache is untouched. -/
theorem remove_none_cases {c : BlockCache} {t : Nat} {c1 : BlockCache}
    (hkc : keyConsistent c.staged_blocks.nodes)
    (hnp : nodesInPending c)
    (h : c.remove_block_if_ready t = some (none, c1)) :
    (c.staged_blocks.tree_depth < t ∨ c.staged_blocks.tree_depth = 0) ∧ c1 = c := by
  rw [BlockCache.remove_block_if_ready] at h
  rcases himpl : c.remove_block_if_ready_impl t with _ | ⟨⟨biOpt, bOpt⟩, c2⟩
  · rw [himpl] at h
    cases h
  · rw [himpl] at h
    simp only at h
    have hb : bOpt = none := by
      have := congrArg (fun x => x.map (fun y => y.1)) h
      simpa using this
    have hc : c1 = c2 := by
      have := congrArg (fun x => x.map (fun y => y.2)) h
      simpa using this.symm
    subst hb
    subst hc
    rw [BlockCache.remove_block_if_ready_impl] at himpl
    rcases hst : c.staged_blocks.remove_block_info_if_ready t with _ | ⟨⟨biOpt2, lo⟩, staged1⟩
    · rw [hst] at himpl
      cases himpl
    · rw [hst] at himpl
      simp only at himpl
      cases biOpt2 with
      | none =>
        rcases staged_none_shape hst with ⟨hcond, -, hs1⟩
        subst hs1
        cases himpl
        exact ⟨hcond, rfl⟩
      | some bi =>
        exfalso
        rcases staged_fire_shape hst with
          ⟨rk, rn, hrk, hrn, hbi, -, -, -, -, hdisj⟩
        have hhash : rn.block_info.hash = rk := hkc _ (mlookup_mem hrn)
        have hpend : (mlookup c.pending_full_blocks rk).isSome :=
          hnp _ (mlookup_mem hrn)
        have hgone : mlookup staged1.nodes rk = none := by
          rcases hdisj with ⟨-, hn⟩ | ⟨k, nw, -, hk, -, hn⟩
          · rw [hn]
            exact mlookup_merase_self _ _
          · have hkrk : rk ≠ k := by
              intro he
              rw [← he, mlookup_merase_self] at hk
              cases hk
            rw [hn, mlookup_minsert_ne _ _ hkrk]
            exact mlookup_merase_self _ _
        rcases hap : (match lo with
            | none => some (c.pending_full_blocks, staged1.nodes)
            | some losing_children =>
              purge_losing_blocks (staged1.nodes.length + 1) c.pending_full_blocks
                staged1.nodes losing_children) with _ | ⟨p2, n2⟩
        · rw [hap] at himpl
          cases himpl
        · rw [hap] at himpl
          simp only at himpl
          have hpb : mlookup p2 bi.hash = none := by
            have := congrArg (fun x => x.map (fun y => y.1.2)) himpl
            simpa using this
          have hp2rk : mlookup p2 rk = mlookup c.pending_full_blocks rk := by
            cases lo with
            | none =>
              cases hap
              rfl
            | some losing =>
              simp only at hap
              exact ((purge_lookups _ _ _ _ _ _ hap).1 rk hgone).2
          rw [hbi, hhash, hp2rk] at hpb
          rw [hpb] at hpend
          cases hpend

/-- C10: whenever `remove_block_if_ready` answers `None` (on a cache whose
staged nodes are keyed by their own hash and have pending payloads — true of
every state the cache builds), the entire cache state is unchanged: pending
store, out-of-order holding, node map, `tree_root`, `tree_depth` and
`root_removed_cnt` are exactly as before the call. -/
theorem c10_none_frame (c : BlockCache) (t : Nat) (c1 : BlockCache)
    (hkc : keyConsistent c.staged_blocks.nodes)
    (hnp : nodesInPending c)
    (h : c.remove_block_if_ready t = some (none, c1)) : c1 = c :=
  (remove_none_cases hkc hnp h).2

/-- Witness for C10 at a concrete reachable state: one staged block,
threshold 5 declines and the state is unchanged. -/
theorem c10_none_frame_witness :
    keyConsistent (runCache [.add (mkB 1 0)]).staged_blocks.nodes ∧
    nodesInPending (runCache [.add (mkB 1 0)]) ∧
    (runCache [.add (mkB 1 0)]).remove_block_if_ready 5
        = some (none, runCache [.add (mkB 1 0)]) ∧
    runCache [.add (mkB 1 0)] = runCache [.add (mkB 1 0)] :=
  ⟨by decide, by decide, by decide,
    c10_none_frame (runCache [.add (mkB 1 0)]) 5 (runCache [.add (mkB 1 0)])
      (by decide) (by decide) (by decide)⟩

/-- C5 (amended): on a cache whose staged nodes are keyed by their own hash
with pending payloads, `remove_block_if_ready` returns `None` exactly when
`tree_depth < threshold` or `tree_depth = 0`.  (The original claim's
"promotes for threshold 0 on any non-empty tree" fails because a fresh
single-node tree has `tree_depth = 0`; depth, not node count, is what the
code tests.) -/
theorem c5_none_iff (c : BlockCache) (t : Nat)
    (hkc : keyConsistent c.staged_blocks.nodes)
    (hnp : nodesInPending c) :
    (c.remove_block_if_ready t).map Prod.fst = some none ↔
      (c.staged_blocks.tree_depth < t ∨ c.staged_blocks.tree_depth = 0) := by
  constructor
  · intro hmap
    rcases hr : c.remove_block_if_ready t with _ | ⟨bo, c1⟩
    · rw [hr] at hmap
      cases hmap
    · rw [hr] at hmap
      have hbo : bo = none := by simpa using hmap
      subst hbo
      exact (remove_none_cases hkc hnp hr).1
  · intro hcond
    rw [BlockCache.remove_block_if_ready, BlockCache.remove_block_if_ready_impl,
      StagedBlocks.remove_block_info_if_ready, if_pos hcond]
    rfl

/-- Witness for the amended C5: with one staged block, threshold 5 exceeds
the depth and the call returns `None`. -/
theorem c5_none_iff_witness :
    keyConsistent (runCache [.add (mkB 1 0)]).staged_blocks.nodes ∧
    nodesInPending (runCache [.add (mkB 1 0)]) ∧
    (((runCache [.add (mkB 1 0)]).remove_block_if_ready 5).map Prod.fst = some none ↔
      ((runCache [.add (mkB 1 0)]).staged_blocks.tree_depth < 5 ∨
       (runCache [.add (mkB 1 0)]).staged_blocks.tree_depth = 0)) :=
  ⟨by decide, by decide, c5_none_iff (runCache [.add (mkB 1 0)]) 5 (by decide) (by decide)⟩

/-- C9: when `remove_block_if_ready` fires on a single-node tree (depth 1,
so any threshold up to 1, in particular threshold 0) whose root has no
children, the operation does not abort: it returns the root's pending block,
the tree becomes empty (`tree_root` cleared, node map empty), `tree_depth`
drops to 0 and `root_removed_cnt` is incremented. -/
theorem c9_childless_root (c : BlockCache) (t r : Nat) (rn : TreeNode) (blk : Block)
    (hroot : c.staged_blocks.tree_root = some r)
    (hnodes : c.staged_blocks.nodes = [(r, rn)])
    (hch : rn.children = [])
    (htd : c.staged_blocks.tree_depth = 1)
    (ht : t ≤ 1)
    (hpend : mlookup c.pending_full_blocks rn.block_info.hash = some blk) :
    c.remove_block_if_ready t = some (some blk,
      { c with
        pending_full_blocks := merase c.pending_full_blocks rn.block_info.hash,
        staged_blocks :=
          { tree_root := none, nodes := [], tree_depth := 0,
            root_removed_cnt := c.staged_blocks.root_removed_cnt + 1 } }) := by
  have hcond : ¬ (c.staged_blocks.tree_depth < t ∨ c.staged_blocks.tree_depth = 0) := by
    rw [htd]
    omega
  rw [BlockCache.remove_block_if_ready, BlockCache.remove_block_if_ready_impl,
    StagedBlocks.remove_block_info_if_ready, if_neg hcond, hroot, hnodes]
  simp [mlookup, merase, hch, htd, hpend]

/-- Witness for C9: the single-node tree reached by staging the chain
`(1,0), (2,1)` and promoting once; a threshold-0 call then drains it. -/
theorem c9_childless_root_witness :
    (runCache [.add (mkB 1 0), .add (mkB 2 1), .remove 1]).staged_blocks.tree_root
        = some 2 ∧
    (runCache [.add (mkB 1 0), .add (mkB 2 1), .remove 1]).staged_blocks.nodes
        = [(2, { block_info := { hash := 2, prev_hash := 1 }, parent := none,
                 children := [], orig_level := 2 })] ∧
    (runCache [.add (mkB 1 0), .add (mkB 2 1), .remove 1]).remove_block_if_ready 0
      = some (some (mkB 2 1),
        { runCache [.add (mkB 1 0), .add (mkB 2 1), .remove 1] with
          pending_full_blocks :=
            merase (runCache [.add (mkB 1 0), .add (mkB 2 1), .remove 1]).pending_full_blocks 2,
          staged_blocks :=
            { tree_root := none, nodes := [], tree_depth := 0,
              root_removed_cnt :=
                (runCache [.add (mkB 1 0), .add (mkB 2 1), .remove 1]).staged_blocks.root_removed_cnt
                  + 1 } }) :=
  ⟨by decide, by decide,
    c9_childless_root (runCache [.add (mkB 1 0), .add (mkB 2 1), .remove 1]) 0 2
      { block_info := { hash := 2, prev_hash := 1 }, parent := none,
        children := [], orig_level := 2 }
      (mkB 2 1) (by decide) (by decide) (by decide) (by decide) (by decide) (by decide)⟩

theorem winner_scan_isSome (nodes : NodeMap) (fuel : Nat) :
    ∀ cs best maxd, (∀ c ∈ cs, (calculate_depth_from_node nodes fuel c).isSome) →
      (winner_scan nodes fuel cs best maxd).isSome := by
  intro cs
  induction cs with
  | nil =>
    intro best maxd _
    rw [winner_scan]
    rfl
  | cons c rest ih =>
    intro best maxd hall
    rcases hc : calculate_depth_from_node nodes fuel c with _ | d
    · have := hall c (List.mem_cons_self _ _)
      rw [hc] at this
      cases this
    · rw [winner_scan, hc]
      simp only
      have hrest := fun c2 h2 => hall c2 (List.mem_cons_of_mem _ h2)
      by_cases hlt : maxd < d
      · rw [if_pos hlt]
        exact ih _ _ hrest
      · rw [if_neg hlt]
        exact ih _ _ hrest

/-- C4: when a promotion removes a root with more than one child (and the
depth probes of the children complete, as they do on every well-formed
tree), the child picked as the new root has maximal subtree depth — in the
source's own recursive sense, 1 + maximum over children, leaves scoring 1 —
among all the root's children, and the returned losing set is the root's
child set minus the winner. -/
theorem c4_deepest_child_wins (s : StagedBlocks) (t : Nat) (rk : Nat)
    (rn : TreeNode)
    (hroot : s.tree_root = some rk)
    (hrn : mlookup s.nodes rk = some rn)
    (hcnt : 1 < rn.children.length)
    (hcond : ¬ (s.tree_depth < t ∨ s.tree_depth = 0))
    (hdeeps : ∀ c ∈ rn.children,
      (calculate_depth_from_node (merase s.nodes rk)
        ((merase s.nodes rk).length + 1) c).isSome) :
    ∃ w dw s1,
      w ∈ rn.children ∧
      calculate_depth_from_node (merase s.nodes rk)
          ((merase s.nodes rk).length + 1) w = some dw ∧
      (∀ c ∈ rn.children, ∀ d,
        calculate_depth_from_node (merase s.nodes rk)
            ((merase s.nodes rk).length + 1) c = some d → d ≤ dw) ∧
      s.remove_block_info_if_ready t
        = some ((some rn.block_info,
                 some (rn.children.filter (fun c => ¬ c = w))), s1) ∧
      (∀ nw, mlookup (merase s.nodes rk) w = some nw →
        s1.tree_root = some nw.block_info.hash ∧
        s1.nodes = minsert (merase s.nodes rk) w { nw with parent := none }) := by
  have hsome := winner_scan_isSome (merase s.nodes rk) ((merase s.nodes rk).length + 1)
    rn.children none 0 hdeeps
  rcases hscan : winner_scan (merase s.nodes rk) ((merase s.nodes rk).length + 1)
      rn.children none 0 with _ | res
  · rw [hscan] at hsome
    cases hsome
  · rcases winner_scan_sound _ _ _ _ _ _ hscan with ⟨hres, hbound⟩ |
      ⟨w, dw, hres, hw, hcw, -, hbound⟩
    · -- impossible: the children are non-empty and every depth is ≥ 1
      exfalso
      rcases hc0 : rn.children with _ | ⟨c0, rest⟩
      · rw [hc0] at hcnt
        simp at hcnt
      · have hmem : c0 ∈ rn.children := by
          rw [hc0]
          exact List.mem_cons_self _ _
        have h1 := hdeeps c0 hmem
        rcases hd0 : calculate_depth_from_node (merase s.nodes rk)
            ((merase s.nodes rk).length + 1) c0 with _ | d0
        · rw [hd0] at h1
          cases h1
        · have := hbound c0 hmem d0 hd0
          have := calculate_depth_pos hd0
          omega
    · subst hres
      refine ⟨w, dw, ?_⟩
      rcases hnw : mlookup (merase s.nodes rk) w with _ | nw
      · refine ⟨⟨none, merase s.nodes rk, s.tree_depth - 1,
                  s.root_removed_cnt + 1⟩, hw, hcw, hbound, ?_, ?_⟩
        · rw [StagedBlocks.remove_block_info_if_ready, if_neg hcond, hroot]
          simp only [hrn, if_pos hcnt, hscan, hnw]
        · intro nw' h'
          cases h'
      · refine ⟨⟨some nw.block_info.hash,
                  minsert (merase s.nodes rk) w ({ nw with parent := none }),
                  s.tree_depth - 1, s.root_removed_cnt + 1⟩, hw, hcw, hbound, ?_, ?_⟩
        · rw [StagedBlocks.remove_block_info_if_ready, if_neg hcond, hroot]
          simp only [hrn, if_pos hcnt, hscan, hnw]
        · intro nw' h'
          cases h'
          exact ⟨rfl, rfl⟩

/-- Witness for C4 at the scenario-1 state: the root `0` has children
`[1, 2]`; the subtree of `2` is deeper and wins, `1` is the losing set. -/
theorem c4_deepest_child_wins_witness :
    (runCache scenario1Adds).staged_blocks.tree_root = some 0 ∧
    mlookup (runCache scenario1Adds).staged_blocks.nodes 0
        = some ⟨⟨0, 0⟩, none, [1, 2], 1⟩ ∧
    (∃ w dw s1,
      w ∈ (⟨⟨0, 0⟩, none, [1, 2], 1⟩ : TreeNode).children ∧
      calculate_depth_from_node (merase (runCache scenario1Adds).staged_blocks.nodes 0)
          ((merase (runCache scenario1Adds).staged_blocks.nodes 0).length + 1) w = some dw ∧
      (∀ c ∈ (⟨⟨0, 0⟩, none, [1, 2], 1⟩ : TreeNode).children, ∀ d,
        calculate_depth_from_node (merase (runCache scenario1Adds).staged_blocks.nodes 0)
            ((merase (runCache scenario1Adds).staged_blocks.nodes 0).length + 1) c = some d →
          d ≤ dw) ∧
      (runCache scenario1Adds).staged_blocks.remove_block_info_if_ready 4
        = some ((some (⟨⟨0, 0⟩, none, [1, 2], 1⟩ : TreeNode).block_info,
                 some ((⟨⟨0, 0⟩, none, [1, 2], 1⟩ : TreeNode).children.filter
                   (fun c => ¬ c = w))), s1) ∧
      (∀ nw, mlookup (merase (runCache scenario1Adds).staged_blocks.nodes 0) w = some nw →
        s1.tree_root = some nw.block_info.hash ∧
        s1.nodes = minsert (merase (runCache scenario1Adds).staged_blocks.nodes 0) w
          ({ nw with parent := none }))) :=
  ⟨by decide, by decide,
    c4_deepest_child_wins (runCache scenario1Adds).staged_blocks 4 0
      ⟨⟨0, 0⟩, none, [1, 2], 1⟩ (by decide) (by decide) (by decide) (by decide) (by decide)⟩

theorem minsert_id {α : Type} {m : List (Nat × α)} {k : Nat} {v : α}
    (h : mlookup m k = some v) : minsert m k v = m := by
  induction m with
  | nil => cases h
  | cons e rest ih =>
    by_cases hek : e.1 = k
    · rw [mlookup, if_pos hek] at h
      rw [minsert, if_pos hek]
      cases h
      rw [← hek]
    · rw [mlookup, if_neg hek] at h
      rw [minsert, if_neg hek, ih h]

theorem insertChild_mem {cs : List Nat} {h : Nat} (hm : h ∈ cs) :
    insertChild cs h = cs := by
  rw [insertChild, if_pos hm]

/-- C7 (amended): re-adding a descriptor that is already staged is a
complete no-op — hence every invariant is preserved and subsequent
promotions are unaffected — provided the staged node is still a leaf whose
stored parent link and level match its staged parent, its pending payload is
the same block, and nothing is parked under its hash.  (When the node
already has children the second add wipes them and can corrupt the tree:
see the counterexample.) -/
theorem c7_duplicate_leaf_noop (c : BlockCache) (b : Block) (pn : TreeNode)
    (rt : Nat)
    (hroot : c.staged_blocks.tree_root = some rt)
    (hp : mlookup c.staged_blocks.nodes b.prev_hash = some pn)
    (hh : mlookup c.staged_blocks.nodes b.hash =
      some ⟨⟨b.hash, b.prev_hash⟩, some pn.block_info.hash, [], pn.orig_level + 1⟩)
    (hmem : b.hash ∈ pn.children)
    (hdepth : u32sub (pn.orig_level + 1) c.staged_blocks.root_removed_cnt ≤
      c.staged_blocks.tree_depth)
    (hooo : mlookup c.out_of_order_blocks b.hash = none)
    (hpend : mlookup c.pending_full_blocks b.hash = some b) :
    c.add_block b = some c := by
  rw [BlockCache.add_block, BlockCache.add_block_impl, minsert_id hpend]
  rw [BlockCache.add_block_info]
  have hguard : (({ c with pending_full_blocks := c.pending_full_blocks } :
      BlockCache).staged_blocks.tree_root.isNone ∨
      (mlookup ({ c with pending_full_blocks := c.pending_full_blocks } :
        BlockCache).staged_blocks.nodes
        ({ hash := b.hash, prev_hash := b.prev_hash } : BlockInfo).prev_hash).isSome) := by
    right
    show (mlookup c.staged_blocks.nodes b.prev_hash).isSome
    rw [hp]
    rfl
  rw [if_pos hguard]
  show (match c.staged_blocks.add_block_info { hash := b.hash, prev_hash := b.prev_hash } with
    | none => none
    | some staged1 =>
      match move_out_of_order_blocks_to_staged staged1 c.out_of_order_blocks b.hash with
      | none => none
      | some (staged2, ooo2) =>
        some { c with staged_blocks := staged2, out_of_order_blocks := ooo2 }) = some c
  have hp' : mlookup c.staged_blocks.nodes b.prev_hash
      = some ({ pn with children := pn.children }) := hp
  have hstaged : c.staged_blocks.add_block_info { hash := b.hash, prev_hash := b.prev_hash }
      = some c.staged_blocks := by
    simp only [StagedBlocks.add_block_info, hroot, hp]
    rw [insertChild_mem hmem, minsert_id hp', minsert_id hh,
      if_neg (Nat.not_lt.mpr hdepth), ← hroot]
  rw [hstaged]
  have hmove : move_out_of_order_blocks_to_staged c.staged_blocks
      c.out_of_order_blocks b.hash = some (c.staged_blocks, c.out_of_order_blocks) := by
    simp only [move_out_of_order_blocks_to_staged, hooo]
  show (match move_out_of_order_blocks_to_staged c.staged_blocks
      c.out_of_order_blocks b.hash with
    | none => none
    | some (staged2, ooo2) =>
      some { c with staged_blocks := staged2, out_of_order_blocks := ooo2 }) = some c
  rw [hmove]

/-- Witness for the amended C7: re-adding the leaf `(2,1)` of the staged
chain `1 ← 2` leaves the cache exactly as it was. -/
theorem c7_duplicate_leaf_noop_witness :
    (runCache [.add (mkB 1 0), .add (mkB 2 1)]).staged_blocks.tree_root = some 1 ∧
    mlookup (runCache [.add (mkB 1 0), .add (mkB 2 1)]).staged_blocks.nodes 1
      = some ⟨⟨1, 0⟩, none, [2], 1⟩ ∧
    (runCache [.add (mkB 1 0), .add (mkB 2 1)]).add_block (mkB 2 1)
      = some (runCache [.add (mkB 1 0), .add (mkB 2 1)]) :=
  ⟨by decide, by decide,
    c7_duplicate_leaf_noop (runCache [.add (mkB 1 0), .add (mkB 2 1)]) (mkB 2 1)
      ⟨⟨1, 0⟩, none, [2], 1⟩ 1 (by decide) (by decide) (by decide) (by decide)
      (by decide) (by decide) (by decide)⟩

theorem mem_oooAll_of_lookup {ooo : OooMap} {k : Nat} {vec : List BlockInfo}
    (h : mlookup ooo k = some vec) : ∀ x ∈ vec, x ∈ oooAll ooo := by
  intro x hx
  induction ooo with
  | nil => cases h
  | cons e rest ih =>
    by_cases hek : e.1 = k
    · rw [mlookup, if_pos hek] at h
      cases h
      simp only [oooAll, List.map_cons, List.flatten_cons, List.mem_append]
      left
      exact hx
    · rw [mlookup, if_neg hek] at h
      simp only [oooAll, List.map_cons, List.flatten_cons, List.mem_append]
      right
      exact ih h

theorem mem_oooAll_merase {ooo : OooMap} {k : Nat} {x : BlockInfo}
    (h : x ∈ oooAll (merase ooo k)) : x ∈ oooAll ooo := by
  induction ooo with
  | nil => exact h
  | cons e rest ih =>
    by_cases hek : e.1 = k
    · rw [merase, if_pos hek] at h
      simp only [oooAll, List.map_cons, List.flatten_cons, List.mem_append]
      right
      exact ih h
    · rw [merase, if_neg hek] at h
      simp only [oooAll, List.map_cons, List.flatten_cons, List.mem_append] at h ⊢
      rcases h with h | h
      · left; exact h
      · right; exact ih h

/-- Staging one descriptor into a non-empty tree keeps the root and keeps
every other node's stored descriptor (only a parent's child set can grow). -/
theorem staged_add_preserves {s : StagedBlocks} {bi : BlockInfo}
    {s1 : StagedBlocks} {rt w : Nat} {nv : TreeNode}
    (h : s.add_block_info bi = some s1)
    (hroot : s.tree_root = some rt)
    (hne : bi.hash ≠ w)
    (hnv : mlookup s.nodes w = some nv) :
    s1.tree_root = some rt ∧
    ∃ nv', mlookup s1.nodes w = some nv' ∧ nv'.block_info = nv.block_info := by
  rw [StagedBlocks.add_block_info, hroot] at h
  simp only at h
  rcases hp : mlookup s.nodes bi.prev_hash with _ | pn
  · rw [hp] at h
    cases h
  · rw [hp] at h
    simp only at h
    cases h
    refine ⟨rfl, ?_⟩
    show ∃ nv', mlookup (minsert _ bi.hash _) w = some nv' ∧ nv'.block_info = nv.block_info
    rw [mlookup_minsert_ne _ _ (fun he => hne he.symm)]
    by_cases hpw : w = bi.prev_hash
    · subst hpw
      rw [mlookup_minsert_self]
      rw [hp] at hnv
      cases hnv
      exact ⟨_, rfl, rfl⟩
    · rw [mlookup_minsert_ne _ _ hpw]
      exact ⟨nv, hnv, rfl⟩

/-- The out-of-order drain cascade keeps the root and keeps node `w`'s
stored descriptor, provided neither the work list nor the parked
descriptors carry the hash `w`. -/
theorem drain_preserves :
    ∀ fuel (s : StagedBlocks) (ooo : OooMap) (bis : List BlockInfo) s1 ooo1
      {rt w : Nat} {nv : TreeNode},
      drainWork fuel s ooo bis = some (s1, ooo1) →
      s.tree_root = some rt →
      (∀ x ∈ bis, x.hash ≠ w) →
      (∀ x ∈ oooAll ooo, x.hash ≠ w) →
      mlookup s.nodes w = some nv →
      s1.tree_root = some rt ∧
      ∃ nv', mlookup s1.nodes w = some nv' ∧ nv'.block_info = nv.block_info := by
  intro fuel
  induction fuel with
  | zero =>
    intro s ooo bis s1 ooo1 rt w nv h hroot hbis hooo hnv
    cases bis with
    | nil =>
      rw [drainWork] at h
      cases h
      exact ⟨hroot, nv, hnv, rfl⟩
    | cons x xs => exact absurd h (by rw [drainWork]; simp)
  | succ fuel ih =>
    intro s ooo bis s1 ooo1 rt w nv h hroot hbis hooo hnv
    cases bis with
    | nil =>
      rw [drainWork] at h
      cases h
      exact ⟨hroot, nv, hnv, rfl⟩
    | cons bi rest =>
      rw [drainWork] at h
      rcases hadd : s.add_block_info bi with _ | sA
      · rw [hadd] at h
        cases h
      · rw [hadd] at h
        simp only at h
        rcases staged_add_preserves hadd hroot
            (hbis bi (List.mem_cons_self _ _)) hnv with ⟨hrootA, nvA, hnvA, hbiA⟩
        rcases hvec : mlookup ooo bi.hash with _ | vec
        · rw [hvec] at h
          rcases ih sA ooo rest s1 ooo1 h hrootA
              (fun x hx => hbis x (List.mem_cons_of_mem _ hx)) hooo hnvA with
            ⟨hr1, nv1, hnv1, hbi1⟩
          exact ⟨hr1, nv1, hnv1, hbi1.trans hbiA⟩
        · rw [hvec] at h
          have hbis2 : ∀ x ∈ vec ++ rest, x.hash ≠ w := by
            intro x hx
            rcases List.mem_append.mp hx with hx | hx
            · exact hooo x (mem_oooAll_of_lookup hvec x hx)
            · exact hbis x (List.mem_cons_of_mem _ hx)
          have hooo2 : ∀ x ∈ oooAll (merase ooo bi.hash), x.hash ≠ w :=
            fun x hx => hooo x (mem_oooAll_merase hx)
          rcases ih sA (merase ooo bi.hash) (vec ++ rest) s1 ooo1 h hrootA
              hbis2 hooo2 hnvA with ⟨hr1, nv1, hnv1, hbi1⟩
          exact ⟨hr1, nv1, hnv1, hbi1.trans hbiA⟩

/-- A cache-level `add_block` keeps the root `w`, node `w`'s stored
descriptor, and pending entry `w`, provided neither the added hash nor any
parked hash is `w`. -/
theorem cache_add_preserves {c c1 : BlockCache} {b : Block} {w : Nat}
    {nv : TreeNode}
    (h : execOp c (.add b) = some c1)
    (hroot : c.staged_blocks.tree_root = some w)
    (hne : b.hash ≠ w)
    (hooo : w ∉ oooHashes c.out_of_order_blocks)
    (hnv : mlookup c.staged_blocks.nodes w = some nv) :
    c1.staged_blocks.tree_root = some w ∧
    (∃ nv', mlookup c1.staged_blocks.nodes w = some nv' ∧
      nv'.block_info = nv.block_info) ∧
    mlookup c1.pending_full_blocks w = mlookup c.pending_full_blocks w := by
  have hoooAll : ∀ x ∈ oooAll c.out_of_order_blocks, x.hash ≠ w := by
    intro x hx he
    exact hooo (by
      rw [← he]
      exact List.mem_map_of_mem _ hx)
  rw [execOp, BlockCache.add_block, BlockCache.add_block_impl,
    BlockCache.add_block_info] at h
  split at h
  · -- staged insert followed by the drain cascade
    rcases hadd : (BlockCache.mk
        (minsert c.pending_full_blocks b.hash b) c.out_of_order_blocks
        c.staged_blocks).staged_blocks.add_block_info
        { hash := b.hash, prev_hash := b.prev_hash } with _ | sA
    · rw [hadd] at h
      cases h
    · rw [hadd] at h
      simp only at h
      have hadd' : c.staged_blocks.add_block_info
          { hash := b.hash, prev_hash := b.prev_hash } = some sA := hadd
      rcases staged_add_preserves hadd' hroot hne hnv with ⟨hrootA, nvA, hnvA, hbiA⟩
      rcases hmove : move_out_of_order_blocks_to_staged sA
          c.out_of_order_blocks b.hash with _ | ⟨s2, ooo2⟩
      · rw [hmove] at h
        cases h
      · rw [hmove] at h
        cases h
        rw [move_out_of_order_blocks_to_staged] at hmove
        rcases hvec : mlookup c.out_of_order_blocks b.hash with _ | vec
        · rw [hvec] at hmove
          cases hmove
          exact ⟨hrootA, ⟨nvA, hnvA, hbiA⟩,
            mlookup_minsert_ne _ _ (fun he => hne he.symm)⟩
        · rw [hvec] at hmove
          have hbis : ∀ x ∈ vec, x.hash ≠ w :=
            fun x hx => hoooAll x (mem_oooAll_of_lookup hvec x hx)
          have hooo2 : ∀ x ∈ oooAll (merase c.out_of_order_blocks b.hash), x.hash ≠ w :=
            fun x hx => hoooAll x (mem_oooAll_merase hx)
          rcases drain_preserves _ _ _ _ _ _ hmove hrootA hbis hooo2 hnvA with
            ⟨hr2, nv2, hnv2, hbi2⟩
          exact ⟨hr2, ⟨nv2, hnv2, hbi2.trans hbiA⟩,
            mlookup_minsert_ne _ _ (fun he => hne he.symm)⟩
  · -- parked out of order: the tree is untouched
    cases h
    exact ⟨hroot, ⟨nv, hnv, rfl⟩,
      mlookup_minsert_ne _ _ (fun he => hne he.symm)⟩

/-- A declined `remove_block_if_ready` call leaves the cache unchanged (this
needs no well-formedness: the declining branch is the early return). -/
theorem cache_remove_declined {c c1 : BlockCache} {t : Nat}
    (h : execOp c (.remove t) = some c1)
    (hcond : c.staged_blocks.tree_depth < t ∨ c.staged_blocks.tree_depth = 0) :
    c1 = c := by
  rw [execOp, BlockCache.remove_block_if_ready, BlockCache.remove_block_if_ready_impl,
    StagedBlocks.remove_block_info_if_ready, if_pos hcond] at h
  cases h
  rfl

/-- A quiet epoch keeps the root `w`, node `w`'s stored descriptor and
pending entry `w`. -/
theorem quiet_preserves {w : Nat} {c1 c2 : BlockCache}
    (hq : Quiet w c1 c2) :
    ∀ {nv : TreeNode}, c1.staged_blocks.tree_root = some w →
      mlookup c1.staged_blocks.nodes w = some nv →
      c2.staged_blocks.tree_root = some w ∧
      (∃ nv', mlookup c2.staged_blocks.nodes w = some nv' ∧
        nv'.block_info = nv.block_info) ∧
      mlookup c2.pending_full_blocks w = mlookup c1.pending_full_blocks w := by
  induction hq with
  | refl =>
    intro nv hroot hnv
    exact ⟨hroot, ⟨nv, hnv, rfl⟩, rfl⟩
  | add cB cC b hq2 hne hooo hexec ih =>
    intro nv hroot hnv
    rcases ih hroot hnv with ⟨hrB, ⟨nvB, hnvB, hbiB⟩, hpB⟩
    rcases cache_add_preserves hexec hrB hne hooo hnvB with
      ⟨hrC, ⟨nvC, hnvC, hbiC⟩, hpC⟩
    exact ⟨hrC, ⟨nvC, hnvC, hbiC.trans hbiB⟩, hpC.trans hpB⟩
  | remove cB cC t hq2 hcond hexec ih =>
    intro nv hroot hnv
    rcases ih hroot hnv with ⟨hrB, ⟨nvB, hnvB, hbiB⟩, hpB⟩
    rw [cache_remove_declined hexec hcond]
    exact ⟨hrB, ⟨nvB, hnvB, hbiB⟩, hpB⟩

/-- Decomposition of a successful cache-level promotion: the staged removal
fired, the returned block is the pending payload under the removed
descriptor's hash, the new cache is the purged record, and the purge acts
pointwise on pending and nodes in lockstep. -/
theorem cache_fire_extract {c : BlockCache} {t : Nat} {b : Block}
    {c1 : BlockCache}
    (h : c.remove_block_if_ready t = some (some b, c1)) :
    ∃ bi lo staged1 p2 n2,
      c.staged_blocks.remove_block_info_if_ready t = some ((some bi, lo), staged1) ∧
      mlookup p2 bi.hash = some b ∧
      c1 = { c with pending_full_blocks := merase p2 bi.hash,
                    staged_blocks := { staged1 with nodes := n2 } } ∧
      (∀ k, mlookup staged1.nodes k = none →
        mlookup n2 k = none ∧ mlookup p2 k = mlookup c.pending_full_blocks k) ∧
      (∀ k v, mlookup n2 k = some v →
        mlookup staged1.nodes k = some v ∧
        mlookup p2 k = mlookup c.pending_full_blocks k) := by
  rw [BlockCache.remove_block_if_ready, BlockCache.remove_block_if_ready_impl] at h
  rcases hst : c.staged_blocks.remove_block_info_if_ready t with _ |
    ⟨⟨biOpt, lo⟩, staged1⟩
  · rw [hst] at h
    cases h
  · rw [hst] at h
    simp only at h
    cases biOpt with
    | none =>
      cases h
    | some bi =>
      rcases hap : (match lo with
          | none => some (c.pending_full_blocks, staged1.nodes)
          | some losing_children =>
            purge_losing_blocks (staged1.nodes.length + 1) c.pending_full_blocks
              staged1.nodes losing_children) with _ | ⟨p2, n2⟩
      · rw [hap] at h
        cases h
      · rw [hap] at h
        simp only at h
        have hb : mlookup p2 bi.hash = some b := by
          have := congrArg (fun x => x.map (fun y => y.1)) h
          simpa using this
        have hc1 : c1 =
            { c with pending_full_blocks := merase p2 bi.hash,
                     staged_blocks := { staged1 with nodes := n2 } } := by
          have := congrArg (fun x => x.map (fun y => y.2)) h
          simpa using this.symm
        refine ⟨bi, lo, staged1, p2, n2, hst ▸ rfl, hb, hc1, ?_, ?_⟩
        · cases lo with
          | none =>
            cases hap
            exact fun k hk => ⟨hk, rfl⟩
          | some losing =>
            simp only at hap
            exact (purge_lookups _ _ _ _ _ _ hap).1
        · cases lo with
          | none =>
            cases hap
            exact fun k v hv => ⟨hv, rfl⟩
          | some losing =>
            simp only at hap
            exact (purge_lookups _ _ _ _ _ _ hap).2.1

/-- C6 (amended): the blocks returned by successive successful
`remove_block_if_ready` calls form a parent chain — the next returned
block's `prev_hash` is the previously returned block's hash — provided the
tree stays non-empty after the first promotion (`tree_root = some w`, with
the new root still present), and the operations in between are quiet for
`w`: added blocks (and drained parked blocks) never re-use the hash `w`,
and intermediate `remove` calls decline.  Without the non-empty proviso the
chain breaks: see the counterexample. -/
theorem c6_parent_chain (c : BlockCache) (t t' w : Nat) (b b' : Block)
    (c1 c2 c3 : BlockCache)
    (hkc : keyConsistent c.staged_blocks.nodes)
    (hcl : childLink c.staged_blocks.nodes)
    (hpm : nodePayloadMatch c)
    (h1 : c.remove_block_if_ready t = some (some b, c1))
    (hw : c1.staged_blocks.tree_root = some w)
    (hsurv : (mlookup c1.staged_blocks.nodes w).isSome)
    (hq : Quiet w c1 c2)
    (h2 : c2.remove_block_if_ready t' = some (some b', c3)) :
    b'.prev_hash = b.hash := by
  rcases cache_fire_extract h1 with ⟨bi, lo, staged1, p2, n2, hst, hb, hc1, hP1, hP2⟩
  subst hc1
  have hw1 : staged1.tree_root = some w := hw
  rcases staged_fire_shape hst with ⟨rk, rn, hrk, hrn, hbi, -, -, -, -, hdisj⟩
  rcases hdisj with ⟨hnone, -⟩ | ⟨k, nw, hkmem, hknw, hroot1, hnodes1⟩
  · rw [hnone] at hw1
    cases hw1
  · -- identify the new root node and its links
    have hkw : w = nw.block_info.hash := by
      rw [hroot1] at hw1
      exact (Option.some_inj.mp hw1).symm
    have hknodes : (k, nw) ∈ c.staged_blocks.nodes := (mem_merase (mlookup_mem hknw)).1
    have hkrk : k ≠ rk := (mem_merase (mlookup_mem hknw)).2
    have hwk : w = k := by
      rw [hkw, hkc _ hknodes]
    have hrnmem : (rk, rn) ∈ c.staged_blocks.nodes := mlookup_mem hrn
    have hlink : nw.block_info.prev_hash = rn.block_info.hash :=
      hcl _ hrnmem _ hknodes hkmem
    have hrkhash : rn.block_info.hash = rk := hkc _ hrnmem
    -- the promoted payload sits under the root's hash
    have hgone : mlookup staged1.nodes rk = none := by
      rw [hnodes1, mlookup_minsert_ne _ _ (Ne.symm hkrk), mlookup_merase_self]
    have hpend_rk : mlookup c.pending_full_blocks rk = some b := by
      have := (hP1 rk hgone).2
      rw [← this]
      rw [hbi, hrkhash] at hb
      exact hb
    have hbhash : b.hash = rn.block_info.hash :=
      (hpm _ hrnmem _ (mlookup_mem hpend_rk) (hrkhash.symm)).1
    -- node `w` after the purge
    rcases hnv1 : mlookup n2 w with _ | nv1
    · rw [hnv1] at hsurv
      cases hsurv
    · have hstep := hP2 w nv1 hnv1
      have hs1w : mlookup staged1.nodes w = some ({ nw with parent := none }) := by
        rw [hnodes1, hwk, mlookup_minsert_self]
      have hnv1bi : nv1.block_info = nw.block_info := by
        rw [hstep.1] at hs1w
        cases hs1w
        rfl
      have hwne : w ≠ bi.hash := by
        rw [hbi, hrkhash]
        rw [hwk]
        exact hkrk
      have hpendw : mlookup (merase p2 bi.hash) w = mlookup c.pending_full_blocks w := by
        rw [mlookup_merase_ne _ hwne]
        exact hstep.2
      -- push the facts through the quiet epoch
      rcases quiet_preserves hq hw (show mlookup _ w = some nv1 from hnv1) with
        ⟨hr2, ⟨nv2, hnv2, hbi2⟩, hp2⟩
      -- decompose the second promotion
      rcases cache_fire_extract h2 with
        ⟨bi', lo', staged1', p2', n2', hst2, hb2, hc3, hQ1, hQ2⟩
      rcases staged_fire_shape hst2 with ⟨rk2, rn2, hrk2, hrn2, hbi', -, -, -, -, hdisj2⟩
      have hrk2w : rk2 = w := by
        rw [hr2] at hrk2
        exact (Option.some_inj.mp hrk2).symm
      rw [hrk2w] at hrn2 hdisj2
      have hrn2v : rn2 = nv2 := by
        rw [hnv2] at hrn2
        exact (Option.some_inj.mp hrn2).symm
      have hbih : bi'.hash = w := by
        rw [hbi', hrn2v, hbi2, hnv1bi, ← hkw]
      -- the second promoted payload is the pending entry under `w`
      have hgone2 : mlookup staged1'.nodes w = none := by
        rcases hdisj2 with ⟨-, hn⟩ | ⟨k2, nw2, -, hk2, -, hn⟩
        · rw [hn]
          exact mlookup_merase_self _ _
        · have hk2w : w ≠ k2 := by
            intro he
            rw [← he, mlookup_merase_self] at hk2
            cases hk2
          rw [hn, mlookup_minsert_ne _ _ hk2w]
          exact mlookup_merase_self _ _
      have hpend2w : mlookup c2.pending_full_blocks w = some b' := by
        have := (hQ1 w hgone2).2
        rw [← this, ← hbih]
        exact hb2
      -- transport back to the original cache
      have hcw : mlookup c.pending_full_blocks w = some b' := by
        rw [← hpendw, ← hp2]
        exact hpend2w
      have hfinal : b'.prev_hash = nw.block_info.prev_hash :=
        (hpm _ hknodes _ (mlookup_mem hcw) hkw).2
      rw [hfinal, hlink]
      exact hbhash.symm

/-- Witness for the amended C6: stage the chain `1 ← 2 ← 3`, promote `1`,
quietly add `(4,3)`, promote again: the second promoted block `(2,1)` has
`prev_hash = 1`, the hash of the first. -/
theorem c6_parent_chain_witness :
    (runCache [.add (mkB 1 0), .add (mkB 2 1), .add (mkB 3 2)]).remove_block_if_ready 1
      = some (some (mkB 1 0),
          runCache [.add (mkB 1 0), .add (mkB 2 1), .add (mkB 3 2), .remove 1]) ∧
    Quiet 2 (runCache [.add (mkB 1 0), .add (mkB 2 1), .add (mkB 3 2), .remove 1])
      (runCache [.add (mkB 1 0), .add (mkB 2 1), .add (mkB 3 2), .remove 1,
        .add (mkB 4 3)]) ∧
    (runCache [.add (mkB 1 0), .add (mkB 2 1), .add (mkB 3 2), .remove 1,
        .add (mkB 4 3)]).remove_block_if_ready 1
      = some (some (mkB 2 1),
          runCache [.add (mkB 1 0), .add (mkB 2 1), .add (mkB 3 2), .remove 1,
            .add (mkB 4 3), .remove 1]) ∧
    (mkB 2 1).prev_hash = (mkB 1 0).hash :=
  ⟨by decide,
    Quiet.add _ _ _ (mkB 4 3)
      (Quiet.refl (runCache [.add (mkB 1 0), .add (mkB 2 1), .add (mkB 3 2), .remove 1]))
      (by decide) (by decide) (by decide),
    by decide,
    c6_parent_chain
      (runCache [.add (mkB 1 0), .add (mkB 2 1), .add (mkB 3 2)]) 1 1 2
      (mkB 1 0) (mkB 2 1)
      (runCache [.add (mkB 1 0), .add (mkB 2 1), .add (mkB 3 2), .remove 1])
      (runCache [.add (mkB 1 0), .add (mkB 2 1), .add (mkB 3 2), .remove 1,
        .add (mkB 4 3)])
      (runCache [.add (mkB 1 0), .add (mkB 2 1), .add (mkB 3 2), .remove 1,
        .add (mkB 4 3), .remove 1])
      (by decide) (by decide) (by decide) (by decide) (by decide) (by decide)
      (Quiet.add _ _ _ (mkB 4 3)
        (Quiet.refl (runCache [.add (mkB 1 0), .add (mkB 2 1), .add (mkB 3 2), .remove 1]))
        (by decide) (by decide) (by decide))
      (by decide)⟩

/-! ### Key-level map lemmas for the balance invariant -/

theorem mlookup_none_iff {α : Type} {m : List (Nat × α)} {k : Nat} :
    mlookup m k = none ↔ k ∉ mkeys m := by
  induction m with
  | nil => simp [mlookup, mkeys]
  | cons e rest ih =>
    by_cases hek : e.1 = k
    · rw [mlookup, if_pos hek]
      simp [mkeys, hek]
    · rw [mlookup, if_neg hek]
      simp only [mkeys, List.map_cons, List.mem_cons]
      rw [ih]
      constructor
      · intro h hh
        rcases hh with hh | hh
        · exact hek hh.symm
        · exact h hh
      · intro h hh
        exact h (Or.inr hh)

theorem mem_mkeys_of_lookup {α : Type} {m : List (Nat × α)} {k : Nat} {v : α}
    (h : mlookup m k = some v) : k ∈ mkeys m := by
  by_contra hc
  rw [← mlookup_none_iff] at hc
  rw [h] at hc
  cases hc

theorem mem_mkeys_merase {α : Type} {m : List (Nat × α)} {j k : Nat} :
    j ∈ mkeys (merase m k) ↔ j ∈ mkeys m ∧ j ≠ k := by
  induction m with
  | nil => simp [merase, mkeys]
  | cons e rest ih =>
    by_cases hek : e.1 = k
    · rw [merase, if_pos hek, ih]
      simp only [mkeys, List.map_cons, List.mem_cons]
      constructor
      · rintro ⟨h1, h2⟩
        exact ⟨Or.inr h1, h2⟩
      · rintro ⟨h1, h2⟩
        rcases h1 with hh | hh
        · exact absurd (hh.trans hek) h2
        · exact ⟨hh, h2⟩
    · rw [merase, if_neg hek]
      simp only [mkeys, List.map_cons, List.mem_cons] at ih ⊢
      rw [ih]
      constructor
      · rintro (hh | ⟨h1, h2⟩)
        · exact ⟨Or.inl hh, fun he => hek (hh.symm.trans he)⟩
        · exact ⟨Or.inr h1, h2⟩
      · rintro ⟨h1, h2⟩
        rcases h1 with hh | hh
        · exact Or.inl hh
        · exact Or.inr ⟨hh, h2⟩

theorem nodupk_merase {α : Type} {m : List (Nat × α)} {k : Nat}
    (h : NodupK m) : NodupK (merase m k) := by
  induction m with
  | nil => exact h
  | cons e rest ih =>
    rw [NodupK, mkeys, List.map_cons, List.nodup_cons] at h
    by_cases hek : e.1 = k
    · rw [NodupK, merase, if_pos hek]
      exact ih h.2
    · rw [NodupK, merase, if_neg hek, mkeys, List.map_cons, List.nodup_cons]
      refine ⟨fun hc => h.1 ((mem_mkeys_merase.mp hc).1), ih h.2⟩

theorem mkeys_minsert_present {α : Type} {m : List (Nat × α)} {k : Nat} {v : α}
    (h : (mlookup m k).isSome) : mkeys (minsert m k v) = mkeys m := by
  induction m with
  | nil => cases h
  | cons e rest ih =>
    by_cases hek : e.1 = k
    · rw [minsert, if_pos hek, mkeys, mkeys, List.map_cons, List.map_cons, hek]
    · rw [mlookup, if_neg hek] at h
      rw [minsert, if_neg hek, mkeys, List.map_cons, mkeys, List.map_cons]
      exact congrArg (fun l => e.1 :: l) (ih h)

theorem mkeys_minsert_absent {α : Type} {m : List (Nat × α)} {k : Nat} {v : α}
    (h : mlookup m k = none) : mkeys (minsert m k v) = mkeys m ++ [k] := by
  induction m with
  | nil => simp [minsert, mkeys]
  | cons e rest ih =>
    by_cases hek : e.1 = k
    · rw [mlookup, if_pos hek] at h
      cases h
    · rw [mlookup, if_neg hek] at h
      rw [minsert, if_neg hek, mkeys, List.map_cons, mkeys, List.map_cons,
        List.cons_append]
      exact congrArg (fun l => e.1 :: l) (ih h)

theorem nodupk_minsert {α : Type} {m : List (Nat × α)} {k : Nat} {v : α}
    (h : NodupK m) : NodupK (minsert m k v) := by
  rcases hl : mlookup m k with _ | v0
  · rw [NodupK, mkeys_minsert_absent hl]
    rw [List.nodup_append]
    exact ⟨h, List.nodup_singleton _,
      by simpa using mlookup_none_iff.mp hl⟩
  · rw [NodupK, mkeys_minsert_present (by rw [hl]; rfl)]
    exact h

theorem oooAll_cons (e : Nat × List BlockInfo) (rest : OooMap) :
    oooAll (e :: rest) = e.2 ++ oooAll rest := by
  rw [oooAll, List.map_cons, List.flatten_cons]
  rfl

theorem merase_of_none {α : Type} {m : List (Nat × α)} {k : Nat}
    (h : mlookup m k = none) : merase m k = m := by
  induction m with
  | nil => rfl
  | cons e rest ih =>
    by_cases hek : e.1 = k
    · rw [mlookup, if_pos hek] at h
      cases h
    · rw [mlookup, if_neg hek] at h
      rw [merase, if_neg hek, ih h]

theorem oooAll_erase_perm {ooo : OooMap} {k : Nat} {vec : List BlockInfo}
    (hn : NodupK ooo) (h : mlookup ooo k = some vec) :
    (oooAll ooo).Perm (vec ++ oooAll (merase ooo k)) := by
  induction ooo with
  | nil => cases h
  | cons e rest ih =>
    rw [NodupK, mkeys, List.map_cons, List.nodup_cons] at hn
    by_cases hek : e.1 = k
    · rw [mlookup, if_pos hek] at h
      cases h
      rw [merase, if_pos hek]
      have hnone : mlookup rest k = none := by
        rw [mlookup_none_iff]
        intro hc
        exact hn.1 (by rw [hek]; exact hc)
      rw [merase_of_none hnone, oooAll_cons]
    · rw [mlookup, if_neg hek] at h
      rw [merase, if_neg hek, oooAll_cons, oooAll_cons]
      refine ((ih hn.2 h).append_left e.2).trans ?_
      rw [← List.append_assoc, ← List.append_assoc]
      exact List.perm_append_comm.append_right _

theorem oooAll_push_perm (ooo : OooMap) (k : Nat) (bi : BlockInfo) :
    (oooAll (minsert ooo k ((mlookup ooo k).getD [] ++ [bi]))).Perm
      (oooAll ooo ++ [bi]) := by
  induction ooo with
  | nil =>
    simp [minsert, mlookup, oooAll]
  | cons e rest ih =>
    by_cases hek : e.1 = k
    · rw [mlookup, if_pos hek, minsert, if_pos hek, oooAll_cons, oooAll_cons]
      show ((e.2 ++ [bi]) ++ oooAll rest).Perm ((e.2 ++ oooAll rest) ++ [bi])
      rw [List.append_assoc, List.append_assoc]
      exact (List.perm_append_comm.append_left e.2)
    · rw [mlookup, if_neg hek, minsert, if_neg hek, oooAll_cons, oooAll_cons]
      refine (ih.append_left e.2).trans ?_
      rw [← List.append_assoc]

theorem purge_mem_subset :
    ∀ fuel (p : PendingMap) (n : NodeMap) hs p2 n2,
      purge_losing_blocks fuel p n hs = some (p2, n2) →
      (∀ e ∈ p2, e ∈ p) ∧ (∀ e ∈ n2, e ∈ n) := by
  intro fuel
  induction fuel with
  | zero =>
    intro p n hs p2 n2 h
    cases hs with
    | nil =>
      rw [purge_losing_blocks] at h
      cases h
      exact ⟨fun e he => he, fun e he => he⟩
    | cons x xs => exact absurd h (by rw [purge_losing_blocks]; simp)
  | succ fuel ih =>
    intro p n hs p2 n2 h
    cases hs with
    | nil =>
      rw [purge_losing_blocks] at h
      cases h
      exact ⟨fun e he => he, fun e he => he⟩
    | cons x xs =>
      rw [purge_losing_blocks] at h
      rcases hp : mlookup p x with _ | b
      · rw [hp] at h
        exact absurd h (by simp)
      · rw [hp] at h
        rcases hn : mlookup n x with _ | node
        · rw [hn] at h
          exact absurd h (by simp)
        · rw [hn] at h
          simp only at h
          rcases ih (merase p x) (merase n x) (node.children ++ xs) p2 n2 h with ⟨h1, h2⟩
          exact ⟨fun e he => (mem_merase (h1 e he)).1,
            fun e he => (mem_merase (h2 e he)).1⟩

theorem purge_nodupk :
    ∀ fuel (p : PendingMap) (n : NodeMap) hs p2 n2,
      purge_losing_blocks fuel p n hs = some (p2, n2) →
      NodupK p → NodupK n → NodupK p2 ∧ NodupK n2 := by
  intro fuel
  induction fuel with
  | zero =>
    intro p n hs p2 n2 h hp hn
    cases hs with
    | nil =>
      rw [purge_losing_blocks] at h
      cases h
      exact ⟨hp, hn⟩
    | cons x xs => exact absurd h (by rw [purge_losing_blocks]; simp)
  | succ fuel ih =>
    intro p n hs p2 n2 h hp hn
    cases hs with
    | nil =>
      rw [purge_losing_blocks] at h
      cases h
      exact ⟨hp, hn⟩
    | cons x xs =>
      rw [purge_losing_blocks] at h
      rcases hpx : mlookup p x with _ | b
      · rw [hpx] at h
        exact absurd h (by simp)
      · rw [hpx] at h
        rcases hnx : mlookup n x with _ | node
        · rw [hnx] at h
          exact absurd h (by simp)
        · rw [hnx] at h
          simp only at h
          exact ih (merase p x) (merase n x) (node.children ++ xs) p2 n2 h
            (nodupk_merase hp) (nodupk_merase hn)

/-- Key-level effect of staging a fresh descriptor: its hash is appended to
the node keys, and key-consistency and key-dedup are preserved. -/
theorem staged_add_keys {s : StagedBlocks} {bi : BlockInfo} {s1 : StagedBlocks}
    (h : s.add_block_info bi = some s1)
    (hfresh : bi.hash ∉ mkeys s.nodes)
    (hnd : NodupK s.nodes)
    (hkc : keyConsistent s.nodes) :
    mkeys s1.nodes = mkeys s.nodes ++ [bi.hash] ∧ NodupK s1.nodes ∧
      keyConsistent s1.nodes := by
  have habs : mlookup s.nodes bi.hash = none := mlookup_none_iff.mpr hfresh
  rw [StagedBlocks.add_block_info] at h
  rcases hroot : s.tree_root with _ | rt
  · rw [hroot] at h
    cases h
    refine ⟨mkeys_minsert_absent habs, ?_, ?_⟩
    · rw [NodupK, mkeys_minsert_absent habs, List.nodup_append]
      exact ⟨hnd, List.nodup_singleton _, by simpa using hfresh⟩
    · intro e he
      rcases mem_minsert he with he2 | he2
      · exact hkc e he2
      · rw [he2]
        rfl
  · rw [hroot] at h
    simp only at h
    rcases hp : mlookup s.nodes bi.prev_hash with _ | pn
    · rw [hp] at h
      cases h
    · rw [hp] at h
      simp only at h
      cases h
      have hpk : (mlookup s.nodes bi.prev_hash).isSome := by
        rw [hp]
        rfl
      have habs1 : mlookup (minsert s.nodes bi.prev_hash
          ({ pn with children := insertChild pn.children bi.hash })) bi.hash = none := by
        rw [mlookup_none_iff, mkeys_minsert_present hpk]
        exact hfresh
      refine ⟨?_, ?_, ?_⟩
      · rw [mkeys_minsert_absent habs1, mkeys_minsert_present hpk]
      · rw [NodupK, mkeys_minsert_absent habs1, mkeys_minsert_present hpk,
          List.nodup_append]
        exact ⟨hnd, List.nodup_singleton _, by simpa using hfresh⟩
      · intro e he
        rcases mem_minsert he with he2 | he2
        · rcases mem_minsert he2 with he3 | he3
          · exact hkc e he3
          · rw [he3]
            show pn.block_info.hash = bi.prev_hash
            exact hkc _ (mlookup_mem hp)
        · rw [he2]

/-- Key-level effect of the drain cascade: node keys and parked hashes are
conserved — after draining, the staged keys together with the still-parked
hashes are exactly the old staged keys, the work-list hashes and the old
parked hashes — and dedup/consistency are preserved. -/
theorem drain_keys :
    ∀ fuel (s : StagedBlocks) (ooo : OooMap) (bis : List BlockInfo) s1 ooo1,
      drainWork fuel s ooo bis = some (s1, ooo1) →
      NodupK s.nodes → keyConsistent s.nodes → NodupK ooo →
      (mkeys s.nodes ++ (bis.map (fun y => y.hash) ++ oooHashes ooo)).Nodup →
      NodupK s1.nodes ∧ keyConsistent s1.nodes ∧ NodupK ooo1 ∧
      (mkeys s1.nodes ++ oooHashes ooo1).Nodup ∧
      (∀ x, (x ∈ mkeys s1.nodes ∨ x ∈ oooHashes ooo1) ↔
        (x ∈ mkeys s.nodes ∨ x ∈ bis.map (fun y => y.hash) ∨ x ∈ oooHashes ooo)) := by
  intro fuel
  induction fuel with
  | zero =>
    intro s ooo bis s1 ooo1 h hnd hkc hndo hM
    cases bis with
    | nil =>
      rw [drainWork] at h
      cases h
      refine ⟨hnd, hkc, hndo, by simpa using hM, ?_⟩
      intro x
      simp
    | cons x xs => exact absurd h (by rw [drainWork]; simp)
  | succ fuel ih =>
    intro s ooo bis s1 ooo1 h hnd hkc hndo hM
    cases bis with
    | nil =>
      rw [drainWork] at h
      cases h
      refine ⟨hnd, hkc, hndo, by simpa using hM, ?_⟩
      intro x
      simp
    | cons bi rest =>
      rw [drainWork] at h
      rcases hadd : s.add_block_info bi with _ | sA
      · rw [hadd] at h
        cases h
      · rw [hadd] at h
        simp only at h
        have hfresh : bi.hash ∉ mkeys s.nodes := by
          rw [List.nodup_append] at hM
          intro hc
          exact hM.2.2 hc (by simp)
        rcases staged_add_keys hadd hfresh hnd hkc with ⟨hkeysA, hndA, hkcA⟩
        rcases hvec : mlookup ooo bi.hash with _ | vec
        · rw [hvec] at h
          have hM2 : (mkeys sA.nodes ++
              (rest.map (fun y => y.hash) ++ oooHashes ooo)).Nodup := by
            rw [hkeysA]
            simpa [List.append_assoc] using hM
          rcases ih sA ooo rest s1 ooo1 h hndA hkcA hndo hM2 with
            ⟨h1, h2, h3, h4, h5⟩
          refine ⟨h1, h2, h3, h4, ?_⟩
          intro x
          rw [h5 x, hkeysA]
          simp only [List.map_cons, List.mem_append, List.mem_singleton,
            List.mem_cons]
          tauto
        · rw [hvec] at h
          have hperm : (oooHashes ooo).Perm
              ((vec.map (fun y => y.hash)) ++ oooHashes (merase ooo bi.hash)) := by
            have := (oooAll_erase_perm hndo hvec).map (fun y => y.hash)
            simpa [oooHashes, List.map_append] using this
          have hpermTail : ((bi.hash :: rest.map (fun y => y.hash)) ++
              oooHashes ooo).Perm
              (bi.hash :: ((vec ++ rest).map (fun y => y.hash) ++
                oooHashes (merase ooo bi.hash))) := by
            rw [List.cons_append]
            refine List.Perm.cons bi.hash ?_
            refine ((hperm.append_left _).trans ?_)
            rw [List.map_append, ← List.append_assoc]
            exact List.perm_append_comm.append_right _
          have hM2 : (mkeys sA.nodes ++
              ((vec ++ rest).map (fun y => y.hash) ++
                oooHashes (merase ooo bi.hash))).Nodup := by
            rw [hkeysA]
            have hMperm : (mkeys s.nodes ++
                ((bi.hash :: rest.map (fun y => y.hash)) ++ oooHashes ooo)).Perm
                ((mkeys s.nodes ++ [bi.hash]) ++
                  ((vec ++ rest).map (fun y => y.hash) ++
                    oooHashes (merase ooo bi.hash))) := by
              refine (hpermTail.append_left (mkeys s.nodes)).trans ?_
              refine List.Perm.of_eq ?_
              simp [List.append_assoc]
            exact hMperm.nodup (by simpa [List.map_cons] using hM)
          rcases ih sA (merase ooo bi.hash) (vec ++ rest) s1 ooo1 h hndA hkcA
            (nodupk_merase hndo) hM2 with ⟨h1, h2, h3, h4, h5⟩
          refine ⟨h1, h2, h3, h4, ?_⟩
          intro x
          rw [h5 x, hkeysA]
          have hmemperm : x ∈ oooHashes ooo ↔
              x ∈ vec.map (fun y => y.hash) ++ oooHashes (merase ooo bi.hash) :=
            hperm.mem_iff
          simp only [List.map_append, List.map_cons, List.mem_append,
            List.mem_singleton, List.mem_cons] at hmemperm ⊢
          tauto

/-- A nodup append stays nodup when a globally fresh element is appended to
its left part. -/
theorem nodup_append_snoc_left {A B : List Nat} {x : Nat}
    (h : (A ++ B).Nodup) (hxa : x ∉ A) (hxb : x ∉ B) :
    ((A ++ [x]) ++ B).Nodup := by
  rw [List.nodup_append] at h
  rw [List.nodup_append]
  refine ⟨?_, h.2.1, ?_⟩
  · rw [List.nodup_append]
    exact ⟨h.1, List.nodup_singleton _, by simpa using hxa⟩
  · intro a ha
    rcases List.mem_append.mp ha with ha | ha
    · exact h.2.2 ha
    · rw [List.mem_singleton] at ha
      subst ha
      exact hxb

set_option maxHeartbeats 1600000 in
/-- Adding a block with a hash not yet pending preserves the balance
invariant, and the pending keys grow by exactly that hash. -/
theorem add_preserves_inv {c c1 : BlockCache} {b : Block}
    (hinv : CacheInv c)
    (hfresh : b.hash ∉ mkeys c.pending_full_blocks)
    (h : execOp c (.add b) = some c1) :
    CacheInv c1 ∧ ∀ k ∈ mkeys c1.pending_full_blocks,
      k ∈ mkeys c.pending_full_blocks ∨ k = b.hash := by
  rcases hinv with ⟨hndP, hndN, hndO, hkc, hiff, hdisj⟩
  have hfreshN : b.hash ∉ mkeys c.staged_blocks.nodes := by
    intro hc
    exact hfresh ((hiff b.hash).mpr (Or.inl hc))
  have hfreshO : b.hash ∉ oooHashes c.out_of_order_blocks := by
    intro hc
    exact hfresh ((hiff b.hash).mpr (Or.inr hc))
  have habs : mlookup c.pending_full_blocks b.hash = none :=
    mlookup_none_iff.mpr hfresh
  have hkeysP : mkeys (minsert c.pending_full_blocks b.hash b)
      = mkeys c.pending_full_blocks ++ [b.hash] := mkeys_minsert_absent habs
  have hndP1 : NodupK (minsert c.pending_full_blocks b.hash b) :=
    nodupk_minsert hndP
  rw [execOp, BlockCache.add_block, BlockCache.add_block_impl,
    BlockCache.add_block_info] at h
  split at h
  · rcases hadd : (BlockCache.mk
        (minsert c.pending_full_blocks b.hash b) c.out_of_order_blocks
        c.staged_blocks).staged_blocks.add_block_info
        { hash := b.hash, prev_hash := b.prev_hash } with _ | sA
    · rw [hadd] at h
      cases h
    · rw [hadd] at h
      simp only at h
      have hadd' : c.staged_blocks.add_block_info
          { hash := b.hash, prev_hash := b.prev_hash } = some sA := hadd
      rcases staged_add_keys hadd' hfreshN hndN hkc with ⟨hkeysA, hndA, hkcA⟩
      rcases hmove : move_out_of_order_blocks_to_staged sA
          c.out_of_order_blocks b.hash with _ | ⟨s2, ooo2⟩
      · rw [hmove] at h
        cases h
      · rw [hmove] at h
        cases h
        rw [move_out_of_order_blocks_to_staged] at hmove
        rcases hvec : mlookup c.out_of_order_blocks b.hash with _ | vec
        · rw [hvec] at hmove
          cases hmove
          refine ⟨⟨hndP1, hndA, hndO, hkcA, ?_, ?_⟩, ?_⟩
          · intro x
            rw [hkeysP, hkeysA]
            simp only [List.mem_append, List.mem_singleton]
            have := hiff x
            tauto
          · rw [hkeysA]
            exact nodup_append_snoc_left hdisj hfreshN hfreshO
          · intro x hx
            rw [hkeysP] at hx
            simpa using hx
        · rw [hvec] at hmove
          have hperm : (oooHashes c.out_of_order_blocks).Perm
              (vec.map (fun y => y.hash) ++
                oooHashes (merase c.out_of_order_blocks b.hash)) := by
            have := (oooAll_erase_perm hndO hvec).map (fun y => y.hash)
            simpa [oooHashes, List.map_append] using this
          have hM : (mkeys sA.nodes ++
              (vec.map (fun y => y.hash) ++
                oooHashes (merase c.out_of_order_blocks b.hash))).Nodup := by
            rw [hkeysA]
            have hbase : ((mkeys c.staged_blocks.nodes ++
                oooHashes c.out_of_order_blocks) ++ [b.hash]).Nodup := by
              rw [List.nodup_append]
              refine ⟨hdisj, List.nodup_singleton _, ?_⟩
              intro a ha hb
              rw [List.mem_singleton] at hb
              subst hb
              rcases List.mem_append.mp ha with ha | ha
              · exact hfreshN ha
              · exact hfreshO ha
            have hp2 : ((mkeys c.staged_blocks.nodes ++
                oooHashes c.out_of_order_blocks) ++ [b.hash]).Perm
                ((mkeys c.staged_blocks.nodes ++ [b.hash]) ++
                  (vec.map (fun y => y.hash) ++
                    oooHashes (merase c.out_of_order_blocks b.hash))) := by
              rw [List.append_assoc, List.append_assoc]
              refine List.Perm.append_left _ ?_
              refine List.perm_append_comm.trans ?_
              rw [List.singleton_append]
              exact List.Perm.cons _ hperm
            exact hp2.nodup hbase
          rcases drain_keys _ sA (merase c.out_of_order_blocks b.hash) vec s2 ooo2
              hmove hndA hkcA (nodupk_merase hndO) hM with ⟨h1, h2, h3, h4, h5⟩
          refine ⟨⟨hndP1, h1, h3, h2, ?_, h4⟩, ?_⟩
          · intro x
            rw [hkeysP]
            have h6 := h5 x
            rw [hkeysA] at h6
            have h7 : x ∈ oooHashes c.out_of_order_blocks ↔
                x ∈ vec.map (fun y => y.hash) ++
                  oooHashes (merase c.out_of_order_blocks b.hash) := hperm.mem_iff
            have h8 := hiff x
            simp only [List.mem_append, List.mem_singleton] at h6 h7 ⊢
            tauto
          · intro x hx
            rw [hkeysP] at hx
            simpa using hx
  · -- parked out of order
    cases h
    have hpush : (oooHashes (minsert c.out_of_order_blocks b.prev_hash
        ((mlookup c.out_of_order_blocks b.prev_hash).getD [] ++
          [{ hash := b.hash, prev_hash := b.prev_hash }]))).Perm
        (oooHashes c.out_of_order_blocks ++ [b.hash]) := by
      have := (oooAll_push_perm c.out_of_order_blocks b.prev_hash
          { hash := b.hash, prev_hash := b.prev_hash }).map (fun y => y.hash)
      simpa [oooHashes, List.map_append] using this
    refine ⟨⟨hndP1, hndN, nodupk_minsert hndO, hkc, ?_, ?_⟩, ?_⟩
    · intro x
      rw [hkeysP]
      have h7 : x ∈ oooHashes (minsert c.out_of_order_blocks b.prev_hash
          ((mlookup c.out_of_order_blocks b.prev_hash).getD [] ++
            [{ hash := b.hash, prev_hash := b.prev_hash }])) ↔
          x ∈ oooHashes c.out_of_order_blocks ++ [b.hash] := hpush.mem_iff
      have h8 := hiff x
      simp only [List.mem_append, List.mem_singleton] at h7 ⊢
      tauto
    · have hnd2 : ((mkeys c.staged_blocks.nodes ++
          oooHashes c.out_of_order_blocks) ++ [b.hash]).Nodup := by
        rw [List.nodup_append]
        refine ⟨hdisj, List.nodup_singleton _, ?_⟩
        intro a ha hb
        rw [List.mem_singleton] at hb
        subst hb
        rcases List.mem_append.mp ha with ha | ha
        · exact hfreshN ha
        · exact hfreshO ha
      have hperm2 : (mkeys c.staged_blocks.nodes ++
          oooHashes (minsert c.out_of_order_blocks b.prev_hash
            ((mlookup c.out_of_order_blocks b.prev_hash).getD [] ++
              [{ hash := b.hash, prev_hash := b.prev_hash }]))).Perm
          ((mkeys c.staged_blocks.nodes ++
            oooHashes c.out_of_order_blocks) ++ [b.hash]) := by
        refine (hpush.append_left _).trans ?_
        refine List.Perm.of_eq ?_
        rw [List.append_assoc]
      exact (List.Perm.nodup_iff hperm2).mpr hnd2
    · intro x hx
      rw [hkeysP] at hx
      simpa using hx

set_option maxHeartbeats 1600000 in
/-- A `remove_block_if_ready` call preserves the balance invariant and can
only shrink the pending keys. -/
theorem remove_preserves_inv {c c1 : BlockCache} {t : Nat}
    (hinv : CacheInv c)
    (h : execOp c (.remove t) = some c1) :
    CacheInv c1 ∧ ∀ k ∈ mkeys c1.pending_full_blocks,
      k ∈ mkeys c.pending_full_blocks := by
  rcases hinv with ⟨hndP, hndN, hndO, hkc, hiff, hdisj⟩
  rw [execOp, BlockCache.remove_block_if_ready,
    BlockCache.remove_block_if_ready_impl] at h
  rcases hst : c.staged_blocks.remove_block_info_if_ready t with _ |
    ⟨⟨biOpt, lo⟩, staged1⟩
  · rw [hst] at h
    cases h
  · rw [hst] at h
    simp only at h
    cases biOpt with
    | none =>
      cases h
      rcases staged_none_shape hst with ⟨-, -, hs1⟩
      rw [hs1]
      exact ⟨⟨hndP, hndN, hndO, hkc, hiff, hdisj⟩, fun k hk => hk⟩
    | some bi =>
      rcases hap : (match lo with
          | none => some (c.pending_full_blocks, staged1.nodes)
          | some losing_children =>
            purge_losing_blocks (staged1.nodes.length + 1) c.pending_full_blocks
              staged1.nodes losing_children) with _ | ⟨p2, n2⟩
      · rw [hap] at h
        cases h
      · rw [hap] at h
        simp only at h
        cases h
        rcases staged_fire_shape hst with ⟨rk, rn, hrk, hrn, hbi, -, -, -, -, hdisj1⟩
        have hbih : bi.hash = rk := by
          rw [hbi]
          exact hkc _ (mlookup_mem hrn)
        have hrkN : rk ∈ mkeys c.staged_blocks.nodes := mem_mkeys_of_lookup hrn
        have hNnotO : ∀ x, x ∈ mkeys c.staged_blocks.nodes →
            x ∉ oooHashes c.out_of_order_blocks := by
          rw [List.nodup_append] at hdisj
          exact hdisj.2.2
        have hOnodup : (oooHashes c.out_of_order_blocks).Nodup := by
          rw [List.nodup_append] at hdisj
          exact hdisj.2.1
        have hin1 : ∀ x, x ∈ mkeys staged1.nodes ↔
            (x ∈ mkeys c.staged_blocks.nodes ∧ x ≠ rk) := by
          rcases hdisj1 with ⟨-, hn⟩ | ⟨k, nw, -, hknw, -, hn⟩
          · intro x
            rw [hn]
            exact mem_mkeys_merase
          · intro x
            rw [hn, mkeys_minsert_present (by rw [hknw]; rfl)]
            exact mem_mkeys_merase
        have hnd1 : NodupK staged1.nodes := by
          rcases hdisj1 with ⟨-, hn⟩ | ⟨k, nw, -, hknw, -, hn⟩
          · rw [hn]
            exact nodupk_merase hndN
          · rw [hn]
            exact nodupk_minsert (nodupk_merase hndN)
        have hkc1 : keyConsistent staged1.nodes := by
          rcases hdisj1 with ⟨-, hn⟩ | ⟨k, nw, -, hknw, -, hn⟩
          · rw [hn]
            intro e he
            exact hkc e (mem_merase he).1
          · rw [hn]
            intro e he
            rcases mem_minsert he with he2 | he2
            · exact hkc e (mem_merase he2).1
            · rw [he2]
              show nw.block_info.hash = k
              exact hkc _ (mem_merase (mlookup_mem hknw)).1
        have hpfacts :
            (∀ k, mlookup staged1.nodes k = none →
              mlookup n2 k = none ∧
              mlookup p2 k = mlookup c.pending_full_blocks k) ∧
            (∀ k v, mlookup n2 k = some v →
              mlookup staged1.nodes k = some v ∧
              mlookup p2 k = mlookup c.pending_full_blocks k) ∧
            (∀ k, mlookup staged1.nodes k ≠ none → mlookup n2 k = none →
              mlookup p2 k = none) ∧
            (∀ e, e ∈ p2 → e ∈ c.pending_full_blocks) ∧
            (∀ e, e ∈ n2 → e ∈ staged1.nodes) ∧
            NodupK p2 ∧ NodupK n2 := by
          cases lo with
          | none =>
            cases hap
            exact ⟨fun k hk => ⟨hk, rfl⟩, fun k v hv => ⟨hv, rfl⟩,
              fun k h1 h2 => absurd h2 h1, fun e he => he, fun e he => he,
              hndP, hnd1⟩
          | some losing =>
            simp only at hap
            rcases purge_lookups _ _ _ _ _ _ hap with ⟨q1, q2, q3⟩
            rcases purge_mem_subset _ _ _ _ _ _ hap with ⟨q4, q5⟩
            rcases purge_nodupk _ _ _ _ _ _ hap hndP hnd1 with ⟨q6, q7⟩
            exact ⟨q1, q2, q3, q4, q5, q6, q7⟩
        rcases hpfacts with ⟨hQ1, hQ2, hQ3, hQsubP, hQsubN, hndP2, hndN2⟩
        have hin2N : ∀ x, x ∈ mkeys n2 → x ∈ mkeys c.staged_blocks.nodes := by
          intro x hx
          rcases List.mem_map.mp hx with ⟨e, he, hex⟩
          have := hQsubN e he
          rw [← hex]
          exact ((hin1 e.1).mp (List.mem_map_of_mem _ this)).1
        refine ⟨⟨nodupk_merase hndP2, hndN2, hndO, ?_, ?_, ?_⟩, ?_⟩
        · intro e he
          exact hkc1 e (hQsubN e he)
        · intro x
          show x ∈ mkeys (merase p2 bi.hash) ↔ _
          rw [mem_mkeys_merase, hbih]
          by_cases hxrk : x = rk
          · subst hxrk
            have hn1 : x ∉ mkeys staged1.nodes := by
              rw [hin1]
              rintro ⟨-, hc⟩
              exact hc rfl
            have hq := hQ1 x (mlookup_none_iff.mpr hn1)
            constructor
            · rintro ⟨-, hc⟩
              exact absurd rfl hc
            · rintro (hc | hc)
              · exact absurd (mlookup_none_iff.mp hq.1) (fun hcc => hcc hc)
              · exact absurd hc (hNnotO x hrkN)
          · have hx1iff := hin1 x
            rcases hx1 : mlookup staged1.nodes x with _ | v
            · have hq := hQ1 x hx1
              have hxN : x ∉ mkeys c.staged_blocks.nodes := by
                intro hc
                exact (mlookup_none_iff.mp hx1) (hx1iff.mpr ⟨hc, hxrk⟩)
              have hxn2 : x ∉ mkeys n2 := mlookup_none_iff.mp hq.1
              have hp2iff : x ∈ mkeys p2 ↔ x ∈ mkeys c.pending_full_blocks := by
                have h0 : mlookup p2 x = none ↔
                    mlookup c.pending_full_blocks x = none := by rw [hq.2]
                rw [mlookup_none_iff, mlookup_none_iff] at h0
                exact not_iff_not.mp h0
              constructor
              · rintro ⟨hx2, -⟩
                right
                rcases (hiff x).mp (hp2iff.mp hx2) with hc | hc
                · exact absurd hc hxN
                · exact hc
              · rintro (hc | hc)
                · exact absurd hc hxn2
                · refine ⟨hp2iff.mpr ((hiff x).mpr (Or.inr hc)), hxrk⟩
            · have hxstaged : x ∈ mkeys staged1.nodes := mem_mkeys_of_lookup hx1
              have hxN : x ∈ mkeys c.staged_blocks.nodes := (hx1iff.mp hxstaged).1
              rcases hn2x : mlookup n2 x with _ | v2
              · have hq3 := hQ3 x (by rw [hx1]; simp) hn2x
                have hxp2 : x ∉ mkeys p2 := mlookup_none_iff.mp hq3
                constructor
                · rintro ⟨hc, -⟩
                  exact absurd hc hxp2
                · rintro (hc | hc)
                  · exact absurd (mlookup_none_iff.mp hn2x) (fun hcc => hcc hc)
                  · exact absurd hc (hNnotO x hxN)
              · have hq2 := hQ2 x v2 hn2x
                have hxn2 : x ∈ mkeys n2 := mem_mkeys_of_lookup hn2x
                have hp2iff : x ∈ mkeys p2 ↔ x ∈ mkeys c.pending_full_blocks := by
                  have h0 : mlookup p2 x = none ↔
                      mlookup c.pending_full_blocks x = none := by rw [hq2.2]
                  rw [mlookup_none_iff, mlookup_none_iff] at h0
                  exact not_iff_not.mp h0
                constructor
                · rintro ⟨-, -⟩
                  exact Or.inl hxn2
                · rintro -
                  exact ⟨hp2iff.mpr ((hiff x).mpr (Or.inl hxN)), hxrk⟩
        · rw [List.nodup_append]
          exact ⟨hndN2, hOnodup, fun a ha => hNnotO a (hin2N a ha)⟩
        · intro x hx
          show x ∈ mkeys c.pending_full_blocks
          have hx2 : x ∈ mkeys p2 := (mem_mkeys_merase.mp hx).1
          rcases List.mem_map.mp hx2 with ⟨e, he, hex⟩
          rw [← hex]
          exact List.mem_map_of_mem _ (hQsubP e he)

/-- The balance invariant yields the count equation. -/
theorem count_of_inv {c : BlockCache} (hinv : CacheInv c) :
    c.pending_cnt = c.staged_cnt + oooTotal c.out_of_order_blocks := by
  rcases hinv with ⟨hndP, -, -, -, hiff, hdisj⟩
  have hperm : (mkeys c.pending_full_blocks).Perm
      (mkeys c.staged_blocks.nodes ++ oooHashes c.out_of_order_blocks) := by
    rw [List.perm_ext_iff_of_nodup hndP hdisj]
    intro a
    rw [List.mem_append]
    exact hiff a
  have hlen := hperm.length_eq
  rw [mkeys, List.length_map, List.length_append, mkeys, List.length_map,
    oooHashes, List.length_map] at hlen
  rw [BlockCache.pending_cnt, BlockCache.staged_cnt, oooTotal]
  exact hlen

/-- The fresh cache satisfies the balance invariant. -/
theorem cacheInv_new : CacheInv BlockCache.new := by
  refine ⟨?_, ?_, ?_, ?_, ?_, ?_⟩ <;> simp [BlockCache.new, StagedBlocks.new,
    NodupK, mkeys, keyConsistent, oooHashes, oooAll]

/-- Executing distinct-hash operations from an invariant-satisfying state
preserves the invariant (the pending keys stay within the initial keys plus
the added hashes). -/
theorem execOps_inv :
    ∀ (ops : List Op) (c0 c : BlockCache),
      CacheInv c0 →
      execOps c0 ops = some c →
      (addHashes ops).Nodup →
      (∀ h ∈ addHashes ops, h ∉ mkeys c0.pending_full_blocks) →
      CacheInv c ∧ ∀ k ∈ mkeys c.pending_full_blocks,
        k ∈ mkeys c0.pending_full_blocks ∨ k ∈ addHashes ops := by
  intro ops
  induction ops with
  | nil =>
    intro c0 c hinv h hnd hfresh
    rw [execOps] at h
    cases h
    exact ⟨hinv, fun k hk => Or.inl hk⟩
  | cons op rest ih =>
    intro c0 c hinv h hnd hfresh
    rw [execOps] at h
    rcases hop : execOp c0 op with _ | c1
    · rw [hop] at h
      cases h
    · rw [hop] at h
      cases op with
      | add b =>
        have hfb : b.hash ∉ mkeys c0.pending_full_blocks :=
          hfresh b.hash (by rw [addHashes]; exact List.mem_cons_self _ _)
        rcases add_preserves_inv hinv hfb hop with ⟨hinv1, hsub1⟩
        have hnd1 : (addHashes rest).Nodup := by
          rw [addHashes] at hnd
          exact (List.nodup_cons.mp hnd).2
        have hbrest : b.hash ∉ addHashes rest := by
          rw [addHashes] at hnd
          exact (List.nodup_cons.mp hnd).1
        have hfresh1 : ∀ x ∈ addHashes rest, x ∉ mkeys c1.pending_full_blocks := by
          intro x hx hc
          rcases hsub1 x hc with hc2 | hc2
          · exact hfresh x (by rw [addHashes]; exact List.mem_cons_of_mem _ hx) hc2
          · rw [hc2] at hx
            exact hbrest hx
        rcases ih c1 c hinv1 h hnd1 hfresh1 with ⟨hinvc, hsubc⟩
        refine ⟨hinvc, ?_⟩
        intro k hk
        rcases hsubc k hk with hk2 | hk2
        · rcases hsub1 k hk2 with hk3 | hk3
          · exact Or.inl hk3
          · exact Or.inr (by rw [addHashes, hk3]; exact List.mem_cons_self _ _)
        · exact Or.inr (by rw [addHashes]; exact List.mem_cons_of_mem _ hk2)
      | remove t =>
        rcases remove_preserves_inv hinv hop with ⟨hinv1, hsub1⟩
        have hfresh1 : ∀ x ∈ addHashes rest, x ∉ mkeys c1.pending_full_blocks := by
          intro x hx hc
          exact hfresh x (by rw [addHashes]; exact hx) (hsub1 x hc)
        rcases ih c1 c hinv1 h (by rw [addHashes] at hnd; exact hnd) hfresh1 with
          ⟨hinvc, hsubc⟩
        refine ⟨hinvc, ?_⟩
        intro k hk
        rcases hsubc k hk with hk2 | hk2
        · exact Or.inl (hsub1 k hk2)
        · exact Or.inr (by rw [addHashes]; exact hk2)

/-- C8: in every cache state reachable from a fresh cache by adding blocks
with pairwise distinct hashes and promoting, the pending count equals the
staged count plus the total number of descriptors parked in out-of-order
holding. -/
theorem c8_pending_balance (ops : List Op) (c : BlockCache)
    (hdist : (addHashes ops).Nodup)
    (hexec : execOps BlockCache.new ops = some c) :
    c.pending_cnt = c.staged_cnt + oooTotal c.out_of_order_blocks := by
  refine count_of_inv ?_
  exact (execOps_inv ops BlockCache.new c cacheInv_new hexec hdist
    (by intro x hx; simp [BlockCache.new, mkeys])).1

/-- Witness for C8: the scenario-1 inserts followed by a promotion. -/
theorem c8_pending_balance_witness :
    (addHashes (scenario1Adds ++ [Op.remove 4])).Nodup ∧
    (runCache (scenario1Adds ++ [Op.remove 4])).pending_cnt =
      (runCache (scenario1Adds ++ [Op.remove 4])).staged_cnt +
        oooTotal (runCache (scenario1Adds ++ [Op.remove 4])).out_of_order_blocks :=
  ⟨by decide,
    c8_pending_balance (scenario1Adds ++ [Op.remove 4])
      (runCache (scenario1Adds ++ [Op.remove 4])) (by decide) (by decide)⟩
